import Mathlib

/-!
Verification of the rusty-jioblock blockchain-explorer core against its
natural-language specification.

The development has three parts:

1. Shallow embeddings of the presentation helpers that exist in the
   frontend sources (`formatHash`, `formatAddress`, `formatBytes` from
   `explorer-frontend/src/app/page.tsx`), of the WebSocket event contract
   (`WSEvent` from `explorer-frontend/src/types/api.ts`), and of the
   persisted SQL schema (`001_initial_schema.sql`, embedded next to
   `Layout.tsx`).

2. A model of the indexer pipeline (applyBlock, reorg reversal, the
   UTXO / Address / Mempool ledgers).  The Rust indexer sources
   (`explorer/src/indexer`, `explorer/src/database`) are not part of the
   repository snapshot — only their SQL schema and README are — so these
   definitions are modelled from the specification text (sections 4.1–4.5).

3. Theorems settling the frozen claims, with concrete witnesses.
-/

namespace JioBlock

/-! ## Part 1a: formatting helpers from `explorer-frontend/src/app/page.tsx`

JavaScript strings are embedded as `List Char`; `String.prototype.slice`
with a negative argument is embedded by `jsSliceNeg`. -/

/-- The `"..."` infix inserted by `formatHash`. -/
def ellipsis : List Char := String.toList "..."

/-- Embedding of `s.slice(-n)` for a JavaScript string `s`:
for `n = 0` this is the whole string, otherwise the last `n` characters
(the whole string when `n` exceeds the length, which truncated `Nat`
subtraction also gives). -/
def jsSliceNeg (s : List Char) (n : Nat) : List Char :=
  if n = 0 then s else s.drop (s.length - n)

/-- Embedding of `formatHash` from `page.tsx`:
`if (hash.length <= length * 2) return hash;`
`return hash.slice(0, length) + "..." + hash.slice(-length)`. -/
def formatHash (hash : List Char) (len : Nat := 8) : List Char :=
  if hash.length ≤ len * 2 then hash
  else hash.take len ++ ellipsis ++ jsSliceNeg hash len

/-- Embedding of `formatAddress` from `page.tsx`: `formatHash(address, 12)`. -/
def formatAddress (address : List Char) : List Char :=
  formatHash address 12

/-! ## Part 1b: `formatBytes` from `page.tsx`

JavaScript numbers are embedded as rationals (division by 1024 is exact
there for every value the loop can reach, so the loop structure is
faithfully represented). -/

/-- The unit list (B, KB, MB, GB) from `formatBytes`. -/
def byteUnits : List String := ["B", "KB", "MB", "GB"]

/-- Embedding of the `while (size >= 1024 && unitIndex < units.length - 1)`
loop of `formatBytes`; `byteUnits.length - 1 = 3`. -/
def formatBytesLoop (size : ℚ) (unitIndex : Nat) : ℚ × Nat :=
  if h : 1024 ≤ size ∧ unitIndex < 3 then
    formatBytesLoop (size / 1024) (unitIndex + 1)
  else
    (size, unitIndex)
termination_by 3 - unitIndex
decreasing_by omega

/-- The two fractional digits printed by `toFixed(2)`: the tens and ones
digit of the cent count `n % 100`. -/
def toFixed2Digits (n : Nat) : List Char :=
  [Nat.digitChar ((n / 10) % 10), Nat.digitChar (n % 10)]

/-- Embedding of `x.toFixed(2)` for a non-negative number: ECMAScript
rounds to the nearest hundredth, ties away from zero, i.e. the cent count
is `⌊x * 100 + 1/2⌋`. -/
def toFixed2 (q : ℚ) : String :=
  let n : Nat := (Int.floor (q * 100 + 1 / 2)).toNat
  Nat.repr (n / 100) ++ "." ++ String.mk (toFixed2Digits (n % 100))

/-- Embedding of `formatBytes` from `page.tsx`: run the division loop,
then render `` `${size.toFixed(2)} ${units[unitIndex]}` ``. -/
def formatBytes (bytes : ℚ) : String :=
  let r := formatBytesLoop bytes 0
  toFixed2 r.1 ++ " " ++ byteUnits.getD r.2 ""

/-! ## Part 1c: WebSocket event contract from `explorer-frontend/src/types/api.ts` -/

/-- `BlockSummary` from `api.ts` (numbers as `Nat`, optionals as `Option`). -/
structure BlockSummary where
  hash : String
  height : Nat
  timestamp : Nat
  tx_count : Nat
  size : Nat
  weight : Option Nat
  version : Nat
  merkle_root : String
  bits : Nat
  nonce : Nat
  difficulty : Option Nat
  blue_score : Option Nat
  daa_score : Option Nat
  coinbase_value : Option Nat
deriving DecidableEq

/-- `TransactionSummary` from `api.ts`. -/
structure TransactionSummary where
  hash : String
  block_hash : Option String
  block_height : Option Nat
  timestamp : Nat
  size : Nat
  fee : Option Nat
  value : Nat
  input_count : Nat
  output_count : Nat
  is_coinbase : Bool
  is_confirmed : Bool
  confirmation_count : Option Nat
deriving DecidableEq

/-- `NetworkStats` from `api.ts`. -/
structure NetworkStats where
  block_count : Nat
  tx_count : Nat
  address_count : Nat
  total_supply : Nat
  hashrate : Option Nat
  difficulty : Option Nat
  avg_block_time : Option Nat
  mempool_size : Nat
  mempool_bytes : Nat
  peer_count : Nat
  timestamp : Nat
deriving DecidableEq

/-- The payload of `WSMempoolEvent` from `api.ts`:
`{ size: number; bytes: number; transactions: TransactionSummary[] }`. -/
structure MempoolUpdateData where
  size : Nat
  bytes : Nat
  transactions : List TransactionSummary
deriving DecidableEq

/-- The discriminated union `WSEvent` from `api.ts`: exactly four
constructors, one per `type` literal, each carrying its payload type. -/
inductive WSEvent where
  | blockNew (data : BlockSummary)
  | transactionNew (data : TransactionSummary)
  | mempoolUpdate (data : MempoolUpdateData)
  | networkStats (data : NetworkStats)

/-- The `type` discriminant of a `WSEvent`, as the string literal of
`api.ts`. -/
def WSEvent.eventType : WSEvent → String
  | .blockNew _ => "block:new"
  | .transactionNew _ => "transaction:new"
  | .mempoolUpdate _ => "mempool:update"
  | .networkStats _ => "network:stats"

/-! ## Part 1d: persisted schema from `migrations/001_initial_schema.sql`
(embedded in the repository snapshot next to `Layout.tsx`). -/

/-- The columns of the `blocks` table, in declaration order. -/
def blocksColumns : List String :=
  ["hash", "height", "version", "timestamp", "bits", "nonce",
   "merkle_root", "accepted_id_merkle_root", "utxo_commitment",
   "daa_score", "blue_score", "blue_work", "pruning_point",
   "size", "tx_count", "coinbase_value", "created_at"]

/-- The columns of the `block_parents` table, in declaration order. -/
def blockParentsColumns : List String :=
  ["block_hash", "parent_hash", "level"]

/-- The Block columns the specification lists (section 6, "exact
columns"), stated from the specification words for comparison with the
schema. -/
def specBlockColumns : List String :=
  ["hash", "height", "version", "timestamp", "bits", "nonce",
   "merkle_root", "accepted_id_merkle_root", "utxo_commitment",
   "daa_score", "blue_score", "blue_work", "pruning_point",
   "size", "tx_count", "coinbase_value"]

/-- The BlockParent columns the specification lists (section 6). -/
def specBlockParentColumns : List String :=
  ["block_hash", "parent_hash", "level"]

/-! ## Part 2: the indexer core

Modelled from the spec: the Rust indexer sources (`explorer/src/indexer`,
`explorer/src/database`) are absent from the repository snapshot; the
definitions below follow spec sections 3–4.5 (data model, `applyBlock`
steps 1–5, the UTXO / Address / Mempool ledger contracts, reorg reversal
as a recorded journal keyed by block hash).

Tables are association lists keyed the way the schema keys them. -/

section AssocOps

variable {α : Type} {β : Type} [DecidableEq α]

/-- First value stored under a key, if any (SQL `SELECT ... WHERE pk = k`). -/
def lookupA : List (α × β) → α → Option β
  | [], _ => none
  | kv :: l, k => if kv.1 = k then some kv.2 else lookupA l k

/-- Key-presence test. -/
def containsKey (l : List (α × β)) (k : α) : Bool :=
  (lookupA l k).isSome

/-- In-place update of every row stored under a key (SQL `UPDATE`). -/
def updateA (l : List (α × β)) (k : α) (f : β → β) : List (α × β) :=
  l.map fun kv => if kv.1 = k then (kv.1, f kv.2) else kv

/-- Delete every row stored under a key (SQL `DELETE ... WHERE pk = k`). -/
def removeA (l : List (α × β)) (k : α) : List (α × β) :=
  l.filter fun kv => decide (kv.1 ≠ k)

/-- The keys of an association list. -/
def keysA (l : List (α × β)) : List α :=
  l.map Prod.fst

end AssocOps

/-! ### Feed data (spec section 6: `{block, transactions[]}` tuples) -/

/-- A transaction outpoint `(tx_hash, index)` — the key of the
`transaction_outputs` table. -/
structure TxOutPoint where
  txHash : String
  idx : Nat
deriving DecidableEq

/-- Modelled from the spec: one input of a feed transaction (TxInput row
shape, section 3); `prevOut = none` is a coinbase input with no real
referenced output. -/
structure FeedInput where
  prevOut : Option TxOutPoint
deriving DecidableEq

/-- Modelled from the spec: one output of a feed transaction (TxOutput
row shape, section 3). -/
structure FeedOutput where
  value : Nat
  address : Option String
deriving DecidableEq

/-- Modelled from the spec: a feed transaction. -/
structure FeedTx where
  hash : String
  inputs : List FeedInput
  outputs : List FeedOutput
deriving DecidableEq

/-- Modelled from the spec: one `{block, transactions[]}` feed tuple
(section 6), carrying the fields `applyBlock` uses. -/
structure FeedBlock where
  hash : String
  parents : List String
  height : Nat
  blueScore : Nat
  timestamp : Nat
  txs : List FeedTx
deriving DecidableEq

/-! ### Store rows (spec section 3 data model / section 6 row shapes) -/

/-- Modelled from the spec: the Block row fields the pipeline computes
(step 1 of `applyBlock`). -/
structure BlockRow where
  height : Nat
  parents : List String
  blueScore : Nat
  timestamp : Nat
  txCount : Nat
deriving DecidableEq

/-- Modelled from the spec: the Transaction row fields the pipeline
maintains (step 2 of `applyBlock`). -/
structure TxRow where
  blockHash : Option String
  indexInBlock : Nat
  isConfirmed : Bool
deriving DecidableEq

/-- Modelled from the spec: one TxInput row (`transaction_inputs`). -/
structure TxInputRow where
  txHash : String
  idx : Nat
  prevOut : Option TxOutPoint
deriving DecidableEq

/-- Modelled from the spec: one TxOutput / UTXO row
(`transaction_outputs`): value, recipient address, spent flag, and the
spender back-reference `(spent_by_tx_hash, spent_by_input_index)`. -/
structure UtxoRow where
  value : Nat
  address : Option String
  isSpent : Bool
  spentBy : Option (String × Nat)
deriving DecidableEq

/-- A first/last-seen stamp `(height, timestamp)` (spec section 4.3). -/
structure SeenAt where
  height : Nat
  timestamp : Nat
deriving DecidableEq

/-- Modelled from the spec: one Address aggregate row — the fields of the
`applyDelta` contract (section 4.3) plus `balance = total_received −
total_sent` (section 3). -/
structure AddressRow where
  totalReceived : Nat
  totalSent : Nat
  balance : Int
  utxoCount : Int
  firstSeen : Option SeenAt
  lastSeen : Option SeenAt
deriving DecidableEq

/-- Modelled from the spec: one Mempool row (`mempool_transactions`). -/
structure MempoolRow where
  size : Nat
  fee : Nat
  firstSeen : Nat
  lastSeen : Nat
deriving DecidableEq

/-- Modelled from the spec (section 9): the recorded delta journal entry
for one applied block — the prior Address rows (`none` = the address had
no row), so that address aggregates can be rewound exactly on reorg. -/
structure JournalEntry where
  priorAddrs : List (String × Option AddressRow)
deriving DecidableEq

/-- Modelled from the spec: the durable store — one association-list
table per schema table, plus the reorg journal of section 9. -/
structure Store where
  blocks : List (String × BlockRow)
  txs : List (String × TxRow)
  inputs : List TxInputRow
  utxos : List (TxOutPoint × UtxoRow)
  addrs : List (String × AddressRow)
  journal : List (String × JournalEntry)
  mempool : List (String × MempoolRow)
deriving DecidableEq

/-- The empty store. -/
def emptyStore : Store :=
  { blocks := [], txs := [], inputs := [], utxos := [], addrs := [],
    journal := [], mempool := [] }

/-- Modelled from the spec (section 7 taxonomy): the error conditions of
the indexer pipeline and UTXO ledger. -/
inductive IndexError where
  | danglingReference
  | alreadySpent
  | duplicateOutput
deriving DecidableEq

/-- Decidable equality of pipeline results, so that concrete runs can be
checked by evaluation. -/
instance {e a : Type} [DecidableEq e] [DecidableEq a] : DecidableEq (Except e a) :=
  fun x y =>
    match x, y with
    | .ok u, .ok v => decidable_of_iff (u = v) (by simp)
    | .error u, .error v => decidable_of_iff (u = v) (by simp)
    | .ok _, .error _ => isFalse (by simp)
    | .error _, .ok _ => isFalse (by simp)

/-! ### Block-derived data -/

/-- The hashes of the transactions of a block. -/
def txHashes (b : FeedBlock) : List String :=
  b.txs.map FeedTx.hash

/-- Every spend a block performs: the referenced outpoint together with
the spender `(tx_hash, input index)`, in block order. -/
def blockSpends (b : FeedBlock) : List (TxOutPoint × (String × Nat)) :=
  b.txs.flatMap fun t =>
    t.inputs.enum.filterMap fun p =>
      p.2.prevOut.map fun q => (q, (t.hash, p.1))

/-- The outpoints referenced by the inputs of a block. -/
def referencedOutpoints (b : FeedBlock) : List TxOutPoint :=
  (blockSpends b).map Prod.fst

/-- Every output a block creates, keyed by its outpoint, in block order. -/
def blockOutputs (b : FeedBlock) : List (TxOutPoint × FeedOutput) :=
  b.txs.flatMap fun t =>
    t.outputs.enum.map fun p => (⟨t.hash, p.1⟩, p.2)

/-- The TxInput rows a block inserts. -/
def blockInputRows (b : FeedBlock) : List TxInputRow :=
  b.txs.flatMap fun t =>
    t.inputs.enum.map fun p => ⟨t.hash, p.1, p.2.prevOut⟩

/-- The Transaction rows a block confirms (step 2 of `applyBlock`):
`is_confirmed = true`, owning block hash and position recorded. -/
def newTxRows (b : FeedBlock) : List (String × TxRow) :=
  b.txs.enum.map fun p =>
    (p.2.hash, { blockHash := some b.hash, indexInBlock := p.1, isConfirmed := true })

/-- The Block row step 1 inserts. -/
def blockRowOf (b : FeedBlock) : BlockRow :=
  { height := b.height, parents := b.parents, blueScore := b.blueScore,
    timestamp := b.timestamp, txCount := b.txs.length }

/-! ### UTXO Ledger (spec section 4.2) -/

/-- Marks a row spent by the given spender. -/
def markRow (who : String × Nat) (r : UtxoRow) : UtxoRow :=
  { r with isSpent := true, spentBy := some who }

/-- Clears the spent flag and the spender back-reference. -/
def unmarkRow (r : UtxoRow) : UtxoRow :=
  { r with isSpent := false, spentBy := none }

/-- Modelled from the spec (section 4.2): `spend(txHash, index,
spenderTx, spenderInput)` — `DanglingReference` when the target row does
not exist, `AlreadySpent` when its spent flag is already true, otherwise
mark it spent recording the spender. -/
def spendOne (u : List (TxOutPoint × UtxoRow)) (p : TxOutPoint)
    (who : String × Nat) : Except IndexError (List (TxOutPoint × UtxoRow)) :=
  match lookupA u p with
  | none => .error .danglingReference
  | some r =>
      if r.isSpent then .error .alreadySpent
      else .ok (updateA u p (markRow who))

/-- Step 3 of `applyBlock`: perform every spend of the block in order,
failing on the first error. -/
def spendAll (u : List (TxOutPoint × UtxoRow)) :
    List (TxOutPoint × (String × Nat)) → Except IndexError (List (TxOutPoint × UtxoRow))
  | [] => .ok u
  | (p, who) :: rest =>
      match spendOne u p who with
      | .error e => .error e
      | .ok u1 => spendAll u1 rest

/-- Modelled from the spec (section 4.2): `create(output)` —
`DuplicateOutput` when `(txHash, index)` already exists, otherwise insert
a fresh unspent row. -/
def createOne (u : List (TxOutPoint × UtxoRow)) (p : TxOutPoint)
    (o : FeedOutput) : Except IndexError (List (TxOutPoint × UtxoRow)) :=
  if containsKey u p then .error .duplicateOutput
  else .ok (u ++ [(p, { value := o.value, address := o.address,
                        isSpent := false, spentBy := none })])

/-- Step 4 of `applyBlock`: insert every output of the block in order. -/
def createAll (u : List (TxOutPoint × UtxoRow)) :
    List (TxOutPoint × FeedOutput) → Except IndexError (List (TxOutPoint × UtxoRow))
  | [] => .ok u
  | (p, o) :: rest =>
      match createOne u p o with
      | .error e => .error e
      | .ok u1 => createAll u1 rest

/-! ### Address Ledger deltas (spec sections 4.1 step 5 and 4.3) -/

/-- Value a block sends to address `a`: the sum over the outputs of the
block whose recipient is `a`. -/
def receivedTo (b : FeedBlock) (a : String) : Nat :=
  ((blockOutputs b).map fun po =>
    if po.2.address = some a then po.2.value else 0).sum

/-- Number of outputs a block creates for address `a`. -/
def receivedCountTo (b : FeedBlock) (a : String) : Nat :=
  ((blockOutputs b).map fun po =>
    if po.2.address = some a then 1 else 0).sum

/-- Value of the referenced output of outpoint `p` if it belongs to
address `a`, looked up in the UTXO table. -/
def refValue (u : List (TxOutPoint × UtxoRow)) (p : TxOutPoint) (a : String) : Nat :=
  match lookupA u p with
  | some r => if r.address = some a then r.value else 0
  | none => 0

/-- One if the referenced output of outpoint `p` belongs to address `a`. -/
def refCount (u : List (TxOutPoint × UtxoRow)) (p : TxOutPoint) (a : String) : Nat :=
  match lookupA u p with
  | some r => if r.address = some a then 1 else 0
  | none => 0

/-- Value a block spends from address `a`: the sum of the referenced
UTXO values that belong to `a` (derived from the pre-apply UTXO table,
step 5 of `applyBlock`). -/
def sentFrom (u : List (TxOutPoint × UtxoRow)) (b : FeedBlock) (a : String) : Nat :=
  ((referencedOutpoints b).map fun p => refValue u p a).sum

/-- Number of UTXOs a block spends from address `a`. -/
def sentCountFrom (u : List (TxOutPoint × UtxoRow)) (b : FeedBlock) (a : String) : Nat :=
  ((referencedOutpoints b).map fun p => refCount u p a).sum

/-- The recipient addresses of the outputs of the block. -/
def outAddrs (b : FeedBlock) : List String :=
  (blockOutputs b).filterMap fun po => po.2.address

/-- The owner addresses of the UTXOs referenced by the inputs of the block. -/
def spentAddrs (u : List (TxOutPoint × UtxoRow)) (b : FeedBlock) : List String :=
  (referencedOutpoints b).filterMap fun p => (lookupA u p).bind UtxoRow.address

/-- Every address a block touches, deduplicated — the batched delta set
of step 5 of `applyBlock`. -/
def touchedAddrs (u : List (TxOutPoint × UtxoRow)) (b : FeedBlock) : List String :=
  (outAddrs b ++ spentAddrs u b).dedup

/-- The Address row with all aggregates zero and first/last seen unset. -/
def zeroAddressRow : AddressRow :=
  { totalReceived := 0, totalSent := 0, balance := 0, utxoCount := 0,
    firstSeen := none, lastSeen := none }

/-- Componentwise maximum of two seen-stamps (section 4.3: `last_seen` is
always advanced to the greater of current and new height/timestamp). -/
def maxSeen (x y : SeenAt) : SeenAt :=
  { height := max x.height y.height, timestamp := max x.timestamp y.timestamp }

/-- Modelled from the spec (section 4.3): `applyDelta` folded into the
row for one address — totals and balance advance by the deltas,
`first_seen` is set only if unset, `last_seen` advances to the maximum. -/
def deltaFn (u : List (TxOutPoint × UtxoRow)) (b : FeedBlock) (a : String)
    (old : Option AddressRow) : AddressRow :=
  let r0 := old.getD zeroAddressRow
  let recv := receivedTo b a
  let sent := sentFrom u b a
  let seen : SeenAt := { height := b.height, timestamp := b.timestamp }
  { totalReceived := r0.totalReceived + recv,
    totalSent := r0.totalSent + sent,
    balance := r0.balance + (recv : Int) - (sent : Int),
    utxoCount := r0.utxoCount + (receivedCountTo b a : Int) - (sentCountFrom u b a : Int),
    firstSeen := match r0.firstSeen with
      | none => some seen
      | some x => some x,
    lastSeen := match r0.lastSeen with
      | none => some seen
      | some x => some (maxSeen x seen) }

/-- Apply one batched delta set to the address table: rows of touched
addresses are updated in place, touched addresses without a row get a
fresh row appended (deltas for different addresses are independent,
section 4.3). -/
def applyDeltas (addrs : List (String × AddressRow)) (ks : List String)
    (g : String → Option AddressRow → AddressRow) : List (String × AddressRow) :=
  (addrs.map fun kv => if kv.1 ∈ ks then (kv.1, g kv.1 (some kv.2)) else kv)
  ++ (ks.filter fun a => !containsKey addrs a).map fun a => (a, g a none)

/-- The journal entry recorded for a block: the prior Address rows of
every touched address (spec section 9: recorded delta journal keyed by
block hash). -/
def journalEntryOf (addrs : List (String × AddressRow)) (ks : List String) : JournalEntry :=
  ⟨ks.map fun a => (a, lookupA addrs a)⟩

/-- Rewind one journal entry: touched addresses that had no prior row are
deleted, the others are restored to their recorded prior rows in place. -/
def restoreAddrs (addrs : List (String × AddressRow))
    (entry : JournalEntry) : List (String × AddressRow) :=
  addrs.filterMap fun kv =>
    match lookupA entry.priorAddrs kv.1 with
    | none => some kv
    | some none => none
    | some (some r) => some (kv.1, r)

/-! ### Transaction rows and the Mempool Tracker -/

/-- Step 2 of `applyBlock` on the transaction table: insert/update each
Transaction row of the block (rows already keyed are overwritten in
place, the rest are appended). -/
def upsertTxRows (txs : List (String × TxRow)) (rows : List (String × TxRow)) :
    List (String × TxRow) :=
  (txs.map fun kv =>
    match lookupA rows kv.1 with
    | some r => (kv.1, r)
    | none => kv)
  ++ rows.filter fun kv => !containsKey txs kv.1

/-- Step 2 of `applyBlock` on the mempool: remove every row whose hash a
confirmed transaction of the block carries (section 4.4: `confirm`). -/
def removeMempool (mp : List (String × MempoolRow)) (hs : List String) :
    List (String × MempoolRow) :=
  mp.filter fun kv => decide (kv.1 ∉ hs)

/-- Modelled from the spec (section 4.4): `observe(tx)` inserts a fresh
mempool row or refreshes `last_seen` of an existing one. -/
def observeTx (mp : List (String × MempoolRow)) (h : String)
    (size fee now : Nat) : List (String × MempoolRow) :=
  if containsKey mp h then
    updateA mp h fun r => { r with lastSeen := now }
  else
    mp ++ [(h, { size := size, fee := fee, firstSeen := now, lastSeen := now })]

/-- Modelled from the spec (section 4.4): TTL eviction — drop every
mempool row last seen strictly before the cutoff; no other table is
touched. -/
def evictMempool (s : Store) (cutoff : Nat) : Store :=
  { s with mempool := s.mempool.filter fun kv => decide (cutoff ≤ kv.2.lastSeen) }

/-! ### The Indexer Pipeline (spec section 4.1) -/

/-- Modelled from the spec (section 4.1): `applyBlock(block,
transactions)` as a single atomic unit.  A block hash already present is
a no-op (idempotence via the Block primary key); otherwise steps 1–5 run,
and the first failing step fails the whole apply with no partial effect:

1. insert the Block row (parent edges carried on the row),
2. insert/update the Transaction rows as confirmed and drop them from
   the mempool,
3. mark every referenced UTXO spent (`DanglingReference` when it does
   not exist, `AlreadySpent` when it is already spent),
4. insert a UTXO row per output (`DuplicateOutput` on key collision),
5. apply the batched per-address delta set, recording the prior rows in
   the reorg journal. -/
def applyBlock (s : Store) (b : FeedBlock) : Except IndexError Store :=
  if containsKey s.blocks b.hash then .ok s
  else
    match spendAll s.utxos (blockSpends b) with
    | .error e => .error e
    | .ok u1 =>
        match createAll u1 (blockOutputs b) with
        | .error e => .error e
        | .ok u2 =>
            .ok { blocks := s.blocks ++ [(b.hash, blockRowOf b)],
                  txs := upsertTxRows s.txs (newTxRows b),
                  inputs := s.inputs ++ blockInputRows b,
                  utxos := u2,
                  addrs := applyDeltas s.addrs (touchedAddrs s.utxos b)
                             (deltaFn s.utxos b),
                  journal := s.journal ++
                    [(b.hash, journalEntryOf s.addrs (touchedAddrs s.utxos b))],
                  mempool := removeMempool s.mempool (txHashes b) }

/-- Apply a block keeping the old store on failure (the transactional
retry discipline of section 4.1: a failed apply leaves no effect). -/
def ingest (s : Store) (b : FeedBlock) : Store :=
  match applyBlock s b with
  | .ok s1 => s1
  | .error _ => s

/-- Apply a sequence of feed blocks in order. -/
def runBlocks (s : Store) (bs : List FeedBlock) : Store :=
  bs.foldl ingest s

/-- Clear the spent marks set by the inputs of a block. -/
def unmarkAll (u : List (TxOutPoint × UtxoRow)) :
    List TxOutPoint → List (TxOutPoint × UtxoRow)
  | [] => u
  | p :: rest => unmarkAll (updateA u p unmarkRow) rest

/-- Modelled from the spec (sections 4.1 reorg handling, 8 scenario, 9):
reverse a previously applied block — delete its Block row, its
Transaction and TxInput rows and the UTXO rows its outputs created,
clear the spent marks its inputs set, restore the prior Address rows
recorded in the journal, and drop the journal entry.  The mempool is not
restored (eviction and confirmation removals are not replayed). -/
def revertBlock (s : Store) (b : FeedBlock) : Store :=
  { blocks := removeA s.blocks b.hash,
    txs := s.txs.filter fun kv => decide (kv.1 ∉ txHashes b),
    inputs := s.inputs.filter fun r => decide (r.txHash ∉ txHashes b),
    utxos := unmarkAll
      (s.utxos.filter fun kv => decide (kv.1.txHash ∉ txHashes b))
      (referencedOutpoints b),
    addrs := restoreAddrs s.addrs ((lookupA s.journal b.hash).getD ⟨[]⟩),
    journal := removeA s.journal b.hash,
    mempool := s.mempool }

/-! ### Operation traces (for the mempool lifecycle claim) -/

/-- Modelled from the spec (section 4.4): the operations that can touch
the Mempool Tracker — observing an unconfirmed transaction, applying a
block, TTL eviction. -/
inductive MempoolOp where
  | observe (h : String) (size fee now : Nat)
  | apply (b : FeedBlock)
  | evict (cutoff : Nat)

/-- Run one mempool-relevant operation. -/
def runOp (s : Store) : MempoolOp → Store
  | .observe h size fee now => { s with mempool := observeTx s.mempool h size fee now }
  | .apply b => ingest s b
  | .evict cutoff => evictMempool s cutoff

/-- Run a sequence of operations. -/
def runOps (s : Store) : List MempoolOp → Store
  | [] => s
  | op :: rest => runOps (runOp s op) rest

/-! ### Association-list lemmas -/

/-- A table has no duplicate keys. -/
def NodupKeys {α β : Type} (l : List (α × β)) : Prop :=
  (keysA l).Nodup

instance {α β : Type} [DecidableEq α] (l : List (α × β)) :
    Decidable (NodupKeys l) := by
  unfold NodupKeys
  infer_instance

/-! ### Derived definitions used by the claim proofs -/

/-- The spend marks of a block, applied simultaneously (the shape of a
successful `spendAll`). -/
def markSpends (u : List (TxOutPoint × UtxoRow)) :
    List (TxOutPoint × (String × Nat)) → List (TxOutPoint × UtxoRow)
  | [] => u
  | (p, who) :: rest => markSpends (updateA u p (markRow who)) rest

/-- The fresh UTXO rows a list of created outputs inserts. -/
def newUtxoRows (os : List (TxOutPoint × FeedOutput)) : List (TxOutPoint × UtxoRow) :=
  os.map fun po =>
    (po.1, { value := po.2.value, address := po.2.address,
             isSpent := false, spentBy := none })

/-- The record a fresh successful `applyBlock` produces. -/
def appliedStore (s : Store) (b : FeedBlock)
    (u2 : List (TxOutPoint × UtxoRow)) : Store :=
  { blocks := s.blocks ++ [(b.hash, blockRowOf b)],
    txs := upsertTxRows s.txs (newTxRows b),
    inputs := s.inputs ++ blockInputRows b,
    utxos := u2,
    addrs := applyDeltas s.addrs (touchedAddrs s.utxos b) (deltaFn s.utxos b),
    journal := s.journal ++
      [(b.hash, journalEntryOf s.addrs (touchedAddrs s.utxos b))],
    mempool := removeMempool s.mempool (txHashes b) }

/-- Contribution of one UTXO row to the total ever received by `a`. -/
def recvValueOf (r : UtxoRow) (a : String) : Nat :=
  if r.address = some a then r.value else 0

/-- Contribution of one UTXO row to the total spent from `a`. -/
def spentValueOf (r : UtxoRow) (a : String) : Nat :=
  if r.isSpent = true ∧ r.address = some a then r.value else 0

/-- Total received by `a`, recomputed independently from the UTXO table:
the sum of all output values addressed to `a`. -/
def utxoReceived (u : List (TxOutPoint × UtxoRow)) (a : String) : Nat :=
  (u.map fun kv => recvValueOf kv.2 a).sum

/-- Total sent from `a`, recomputed independently from the UTXO table:
the sum of all spent output values addressed to `a`. -/
def utxoSpent (u : List (TxOutPoint × UtxoRow)) (a : String) : Nat :=
  (u.map fun kv => spentValueOf kv.2 a).sum

/-- The address aggregate row stored for `a` (the zero row if absent). -/
def addrRowD (s : Store) (a : String) : AddressRow :=
  (lookupA s.addrs a).getD zeroAddressRow

/-- The balance/aggregate cross-check invariant: the UTXO table keys are
unique and for every address the stored aggregates equal the sums
recomputed from the UTXO table. -/
def BalInv (s : Store) : Prop :=
  NodupKeys s.utxos ∧
  ∀ a, (addrRowD s a).totalReceived = utxoReceived s.utxos a ∧
       (addrRowD s a).totalSent = utxoSpent s.utxos a ∧
       (addrRowD s a).balance =
         (utxoReceived s.utxos a : Int) - (utxoSpent s.utxos a : Int)

/-- Number of stored inputs referencing outpoint `p`. -/
def countRefs (ins : List TxInputRow) (p : TxOutPoint) : Nat :=
  (ins.filter fun r => decide (r.prevOut = some p)).length

/-- The spent-flag invariant: UTXO keys are unique; a stored output is
marked spent exactly when exactly one stored input references it, never
more than one; every Transaction row is confirmed; every stored input
belongs to a stored (hence confirmed) transaction. -/
def SpentInv (s : Store) : Prop :=
  NodupKeys s.utxos ∧
  (∀ p r, lookupA s.utxos p = some r →
    (r.isSpent = true ↔ countRefs s.inputs p = 1) ∧ countRefs s.inputs p ≤ 1) ∧
  (∀ p, lookupA s.utxos p = none → countRefs s.inputs p = 0) ∧
  (∀ kv ∈ s.txs, kv.2.isConfirmed = true) ∧
  (∀ r ∈ s.inputs, r.txHash ∈ keysA s.txs)

/-- Genesis-like block: one coinbase transaction paying 500 to `addr0`. -/
def demoGenesis : FeedBlock :=
  { hash := "G", parents := [], height := 0, blueScore := 0, timestamp := 100,
    txs := [{ hash := "cbG", inputs := [⟨none⟩],
              outputs := [{ value := 500, address := some "addr0" }] }] }

/-- Child block: one transaction spending the genesis coinbase output to
`addr1`. -/
def demoBlock1 : FeedBlock :=
  { hash := "B1", parents := ["G"], height := 1, blueScore := 1, timestamp := 200,
    txs := [{ hash := "t1", inputs := [⟨some ⟨"cbG", 0⟩⟩],
              outputs := [{ value := 500, address := some "addr1" }] }] }

/-- The store after applying the genesis block. -/
def demoStoreG : Store := ingest emptyStore demoGenesis

/-- The store after applying the genesis block and its child. -/
def demoStoreB : Store := ingest demoStoreG demoBlock1

/-- Block used to exhibit a dangling reference: spends an outpoint that
was never created. -/
def demoDangling : FeedBlock :=
  { hash := "BD", parents := ["G"], height := 1, blueScore := 1, timestamp := 300,
    txs := [{ hash := "tD", inputs := [⟨some ⟨"missing", 0⟩⟩],
              outputs := [{ value := 1, address := some "addr2" }] }] }

/-- Store with the child-block transaction observed in the mempool. -/
def demoMpStore : Store := runOp demoStoreG (.observe "t1" 10 1 50)

/-- The genesis coinbase UTXO row after the section-8 trace: spent by
the child transaction. -/
def demoSpentRow : UtxoRow :=
  { value := 500, address := some "addr0", isSpent := true,
    spentBy := some ("t1", 0) }

section AssocLemmas

variable {α : Type} {β : Type} [DecidableEq α]

theorem lookupA_nil (k : α) : lookupA ([] : List (α × β)) k = none := rfl

theorem lookupA_cons (kv : α × β) (l : List (α × β)) (k : α) :
    lookupA (kv :: l) k = if kv.1 = k then some kv.2 else lookupA l k := rfl

theorem keysA_nil : keysA ([] : List (α × β)) = [] := rfl

theorem keysA_cons (kv : α × β) (l : List (α × β)) :
    keysA (kv :: l) = kv.1 :: keysA l := rfl

theorem updateA_nil (k : α) (f : β → β) :
    updateA ([] : List (α × β)) k f = [] := rfl

theorem updateA_cons (kv : α × β) (l : List (α × β)) (k : α) (f : β → β) :
    updateA (kv :: l) k f =
      (if kv.1 = k then (kv.1, f kv.2) else kv) :: updateA l k f := rfl

theorem removeA_nil (k : α) : removeA ([] : List (α × β)) k = [] := rfl

theorem removeA_cons (kv : α × β) (l : List (α × β)) (k : α) :
    removeA (kv :: l) k =
      if kv.1 = k then removeA l k else kv :: removeA l k := by
  by_cases h : kv.1 = k <;> simp [removeA, List.filter_cons, h]

theorem lookupA_eq_none {l : List (α × β)} {k : α} :
    lookupA l k = none ↔ k ∉ keysA l := by
  induction l with
  | nil => simp [lookupA_nil, keysA_nil]
  | cons kv t ih =>
      rw [lookupA_cons, keysA_cons]
      by_cases h : kv.1 = k
      · simp [h]
      · rw [if_neg h, ih]
        simp only [List.mem_cons]
        constructor
        · rintro hn (hc | hc)
          · exact h hc.symm
          · exact hn hc
        · intro hn hc
          exact hn (Or.inr hc)

theorem lookupA_isSome_iff {l : List (α × β)} {k : α} :
    (lookupA l k).isSome = true ↔ k ∈ keysA l := by
  rcases h : lookupA l k with - | v
  · simpa [h] using (lookupA_eq_none.1 h)
  · simp only [Option.isSome_some, true_iff]
    by_contra hmem
    rw [lookupA_eq_none.2 hmem] at h
    cases h

theorem containsKey_iff {l : List (α × β)} {k : α} :
    containsKey l k = true ↔ k ∈ keysA l := by
  unfold containsKey
  exact lookupA_isSome_iff

theorem containsKey_eq_false {l : List (α × β)} {k : α} :
    containsKey l k = false ↔ k ∉ keysA l := by
  rw [← Bool.not_eq_true, containsKey_iff]

theorem lookupA_append_left {l1 l2 : List (α × β)} {k : α} {v : β}
    (h : lookupA l1 k = some v) : lookupA (l1 ++ l2) k = some v := by
  induction l1 with
  | nil => cases h
  | cons kv t ih =>
      rw [lookupA_cons] at h
      rw [List.cons_append, lookupA_cons]
      by_cases hk : kv.1 = k
      · rwa [if_pos hk] at h ⊢
      · rw [if_neg hk] at h ⊢
        exact ih h

theorem lookupA_append_right {l1 l2 : List (α × β)} {k : α}
    (h : lookupA l1 k = none) : lookupA (l1 ++ l2) k = lookupA l2 k := by
  induction l1 with
  | nil => rfl
  | cons kv t ih =>
      rw [lookupA_cons] at h
      rw [List.cons_append, lookupA_cons]
      by_cases hk : kv.1 = k
      · rw [if_pos hk] at h; cases h
      · rw [if_neg hk] at h
        rw [if_neg hk]
        exact ih h

theorem lookupA_mem {l : List (α × β)} {kv : α × β}
    (hmem : kv ∈ l) (hnd : NodupKeys l) : lookupA l kv.1 = some kv.2 := by
  induction l with
  | nil => cases hmem
  | cons hd t ih =>
      rw [lookupA_cons]
      rcases List.mem_cons.1 hmem with h | h
      · subst h; rw [if_pos rfl]
      · have hnd2 := hnd
        rw [NodupKeys, keysA_cons, List.nodup_cons] at hnd2
        have hne : hd.1 ≠ kv.1 := by
          intro he
          exact hnd2.1 (he ▸ List.mem_map_of_mem Prod.fst h)
        rw [if_neg hne]
        exact ih h hnd2.2

theorem keysA_append (l1 l2 : List (α × β)) :
    keysA (l1 ++ l2) = keysA l1 ++ keysA l2 := by
  simp [keysA]

theorem keysA_updateA (l : List (α × β)) (k : α) (f : β → β) :
    keysA (updateA l k f) = keysA l := by
  induction l with
  | nil => rfl
  | cons kv t ih =>
      rw [updateA_cons, keysA_cons, keysA_cons, ih]
      by_cases hk : kv.1 = k <;> simp [hk]

theorem lookupA_updateA_self (l : List (α × β)) (k : α) (f : β → β) :
    lookupA (updateA l k f) k = (lookupA l k).map f := by
  induction l with
  | nil => rfl
  | cons kv t ih =>
      rw [updateA_cons, lookupA_cons, lookupA_cons]
      by_cases hk : kv.1 = k
      · rw [if_pos hk]
        simp [hk]
      · simp [hk, ih]

theorem lookupA_updateA_ne (l : List (α × β)) (k k2 : α) (f : β → β)
    (h : k ≠ k2) : lookupA (updateA l k f) k2 = lookupA l k2 := by
  induction l with
  | nil => rfl
  | cons kv t ih =>
      rw [updateA_cons, lookupA_cons, lookupA_cons]
      by_cases hk : kv.1 = k
      · have hne : kv.1 ≠ k2 := hk ▸ h
        simp [hk, h, ih]
      · by_cases hk2 : kv.1 = k2 <;> simp [hk, hk2, Ne.symm h, ih]

theorem updateA_append (l1 l2 : List (α × β)) (k : α) (f : β → β) :
    updateA (l1 ++ l2) k f = updateA l1 k f ++ updateA l2 k f := by
  simp [updateA]

theorem updateA_updateA_same (l : List (α × β)) (k : α) (f g : β → β) :
    updateA (updateA l k f) k g = updateA l k (fun b => g (f b)) := by
  induction l with
  | nil => rfl
  | cons kv t ih =>
      rw [updateA_cons, updateA_cons, updateA_cons, ih]
      by_cases hk : kv.1 = k
      · rw [if_pos hk, if_pos hk]
        simp [hk]
      · rw [if_neg hk, if_neg hk, if_neg hk]

theorem updateA_comm (l : List (α × β)) (k k2 : α) (f g : β → β)
    (h : k ≠ k2) :
    updateA (updateA l k f) k2 g = updateA (updateA l k2 g) k f := by
  induction l with
  | nil => rfl
  | cons kv t ih =>
      rw [updateA_cons, updateA_cons, updateA_cons, updateA_cons, ih]
      by_cases hk : kv.1 = k
      · have hne : kv.1 ≠ k2 := hk ▸ h
        simp [hk, hne, h]
      · by_cases hk2 : kv.1 = k2
        · simp [hk, hk2, Ne.symm h]
        · simp [hk, hk2]

theorem updateA_congr_id (l : List (α × β)) (k : α) (f : β → β)
    (h : ∀ kv, kv ∈ l → kv.1 = k → f kv.2 = kv.2) : updateA l k f = l := by
  induction l with
  | nil => rfl
  | cons kv t ih =>
      rw [updateA_cons,
        ih fun kv2 hm he => h kv2 (List.mem_cons_of_mem _ hm) he]
      by_cases hk : kv.1 = k
      · rw [if_pos hk, h kv (List.mem_cons_self kv t) hk]
      · rw [if_neg hk]

theorem filter_key_updateA (l : List (α × β)) (k : α) (f : β → β)
    (q : α → Bool) :
    (updateA l k f).filter (fun kv => q kv.1) =
      updateA (l.filter fun kv => q kv.1) k f := by
  induction l with
  | nil => rfl
  | cons kv t ih =>
      rw [updateA_cons, List.filter_cons, List.filter_cons]
      by_cases hk : kv.1 = k
      · rw [if_pos hk]
        simp only []
        rcases hq : q kv.1 with - | -
        · rw [hk] at hq
          rw [if_neg (by simp [hq]), if_neg (by simp [hk, hq]), ih]
        · rw [hk] at hq
          rw [if_pos (by simp [hq]), if_pos (by simp [hk, hq]), updateA_cons,
            if_pos hk, ih]
      · rw [if_neg hk]
        rcases hq : q kv.1 with - | -
        · rw [if_neg (by simp [hq]), if_neg (by simp [hq]), ih]
        · rw [if_pos (by simp [hq]), if_pos (by simp [hq]), updateA_cons,
            if_neg hk, ih]

theorem removeA_eq_self {l : List (α × β)} {k : α} (h : k ∉ keysA l) :
    removeA l k = l := by
  induction l with
  | nil => rfl
  | cons kv t ih =>
      rw [keysA_cons, List.mem_cons] at h
      push_neg at h
      rw [removeA_cons, if_neg (fun c => h.1 c.symm), ih h.2]

theorem removeA_append (l1 l2 : List (α × β)) (k : α) :
    removeA (l1 ++ l2) k = removeA l1 k ++ removeA l2 k := by
  simp [removeA]

end AssocLemmas

/-! ### Spend / create characterization -/

theorem spendOne_ok {u : List (TxOutPoint × UtxoRow)} {p : TxOutPoint}
    {who : String × Nat} {u1 : List (TxOutPoint × UtxoRow)}
    (h : spendOne u p who = .ok u1) :
    ∃ r, lookupA u p = some r ∧ r.isSpent = false ∧
      u1 = updateA u p (markRow who) := by
  unfold spendOne at h
  rcases hl : lookupA u p with - | r
  · rw [hl] at h; cases h
  · rw [hl] at h
    dsimp only at h
    rcases hs : r.isSpent with - | -
    · rw [hs] at h
      simp only [Bool.false_eq_true, if_false, Except.ok.injEq] at h
      exact ⟨r, rfl, hs, h.symm⟩
    · rw [hs] at h
      simp only [if_true] at h
      cases h

theorem lookupA_markSpends_ne (u : List (TxOutPoint × UtxoRow))
    (sp : List (TxOutPoint × (String × Nat))) (q : TxOutPoint)
    (h : q ∉ sp.map Prod.fst) :
    lookupA (markSpends u sp) q = lookupA u q := by
  induction sp generalizing u with
  | nil => rfl
  | cons pw rest ih =>
      rcases pw with ⟨p, who⟩
      simp only [List.map_cons, List.mem_cons] at h
      push_neg at h
      rw [markSpends, ih _ h.2, lookupA_updateA_ne _ _ _ _ (fun c => h.1 c.symm)]

theorem keysA_markSpends (u : List (TxOutPoint × UtxoRow))
    (sp : List (TxOutPoint × (String × Nat))) :
    keysA (markSpends u sp) = keysA u := by
  induction sp generalizing u with
  | nil => rfl
  | cons pw rest ih =>
      rcases pw with ⟨p, who⟩
      rw [markSpends, ih, keysA_updateA]

/-- Bundled inversion of a successful `spendAll`: the result is the
simultaneous mark, every referenced outpoint was present and unspent in
the starting table, and the referenced outpoints are pairwise distinct. -/
theorem spendAll_ok {u u2 : List (TxOutPoint × UtxoRow)}
    {sp : List (TxOutPoint × (String × Nat))}
    (h : spendAll u sp = .ok u2) :
    u2 = markSpends u sp ∧
    (∀ pw, pw ∈ sp → ∃ r, lookupA u pw.1 = some r ∧ r.isSpent = false) ∧
    (sp.map Prod.fst).Nodup := by
  induction sp generalizing u with
  | nil =>
      unfold spendAll at h
      simp only [Except.ok.injEq] at h
      exact ⟨h.symm, by rintro pw ⟨⟩, List.nodup_nil⟩
  | cons pw rest ih =>
      rcases pw with ⟨p, who⟩
      unfold spendAll at h
      rcases hso : spendOne u p who with e | u1
      · rw [hso] at h; cases h
      · rw [hso] at h
        obtain ⟨r, hl, hs, hu1⟩ := spendOne_ok hso
        obtain ⟨hshape, hrefs, hnd⟩ := ih h
        subst hu1
        have hmarked : lookupA (updateA u p (markRow who)) p =
            some (markRow who r) := by
          rw [lookupA_updateA_self, hl]; rfl
        have hne : ∀ pw2, pw2 ∈ rest → pw2.1 ≠ p := by
          intro pw2 hm he
          obtain ⟨r2, hl2, hs2⟩ := hrefs pw2 hm
          rw [he, hmarked] at hl2
          have : r2 = markRow who r := by injection hl2 with h2; exact h2.symm
          rw [this] at hs2
          cases hs2
        refine ⟨hshape, ?_, ?_⟩
        · rintro pw2 hm
          rcases List.mem_cons.1 hm with h2 | h2
          · subst h2; exact ⟨r, hl, hs⟩
          · obtain ⟨r2, hl2, hs2⟩ := hrefs pw2 h2
            refine ⟨r2, ?_, hs2⟩
            rwa [lookupA_updateA_ne _ _ _ _ (fun c => hne pw2 h2 c.symm)] at hl2
        · rw [List.map_cons, List.nodup_cons]
          refine ⟨?_, hnd⟩
          intro hmem
          obtain ⟨pw2, hm2, he2⟩ := List.mem_map.1 hmem
          exact hne pw2 hm2 he2

/-- Bundled inversion of a successful `createAll`: the result appends the
fresh rows, no created key pre-existed, and the created keys are
pairwise distinct. -/
theorem createAll_ok {u u2 : List (TxOutPoint × UtxoRow)}
    {os : List (TxOutPoint × FeedOutput)}
    (h : createAll u os = .ok u2) :
    u2 = u ++ newUtxoRows os ∧
    (∀ po, po ∈ os → po.1 ∉ keysA u) ∧
    (os.map Prod.fst).Nodup := by
  induction os generalizing u with
  | nil =>
      unfold createAll at h
      simp only [Except.ok.injEq] at h
      exact ⟨by rw [← h]; simp [newUtxoRows], by rintro po ⟨⟩, List.nodup_nil⟩
  | cons po rest ih =>
      rcases po with ⟨p, o⟩
      unfold createAll createOne at h
      rcases hc : containsKey u p with - | -
      · rw [hc] at h
        simp only [Bool.false_eq_true, if_false] at h
        obtain ⟨hshape, hfresh, hnd⟩ := ih h
        have hku : p ∉ keysA u := containsKey_eq_false.1 hc
        have hkeys1 : keysA (u ++ [(p,
            ({ value := o.value, address := o.address, isSpent := false,
               spentBy := none } : UtxoRow))]) = keysA u ++ [p] := by
          rw [keysA_append]; rfl
        refine ⟨?_, ?_, ?_⟩
        · rw [hshape, List.append_assoc]
          rfl
        · rintro po2 hm
          rcases List.mem_cons.1 hm with h2 | h2
          · subst h2; exact hku
          · intro hk
            exact hfresh po2 h2 (by rw [hkeys1]; exact List.mem_append_left _ hk)
        · rw [List.map_cons, List.nodup_cons]
          refine ⟨?_, hnd⟩
          intro hmem
          obtain ⟨po2, hm2, he2⟩ := List.mem_map.1 hmem
          exact hfresh po2 hm2
            (by rw [hkeys1, he2]; exact List.mem_append_right _ (List.mem_singleton.2 rfl))
      · rw [hc] at h
        simp only [if_true] at h
        cases h

theorem applyBlock_ok_intro {s : Store} {b : FeedBlock}
    {u1 u2 : List (TxOutPoint × UtxoRow)}
    (hb : containsKey s.blocks b.hash = false)
    (h1 : spendAll s.utxos (blockSpends b) = .ok u1)
    (h2 : createAll u1 (blockOutputs b) = .ok u2) :
    applyBlock s b = .ok (appliedStore s b u2) := by
  unfold applyBlock
  rw [hb]
  simp only [Bool.false_eq_true, if_false]
  rw [h1]
  dsimp only
  rw [h2]
  rfl

theorem applyBlock_ok_elim {s s2 : Store} {b : FeedBlock}
    (h : applyBlock s b = .ok s2) :
    (containsKey s.blocks b.hash = true ∧ s2 = s) ∨
    (containsKey s.blocks b.hash = false ∧ ∃ u1 u2,
      spendAll s.utxos (blockSpends b) = .ok u1 ∧
      createAll u1 (blockOutputs b) = .ok u2 ∧
      s2 = appliedStore s b u2) := by
  unfold applyBlock at h
  rcases hb : containsKey s.blocks b.hash with - | -
  · rw [hb] at h
    simp only [Bool.false_eq_true, if_false] at h
    rcases h1 : spendAll s.utxos (blockSpends b) with e | u1
    · rw [h1] at h; cases h
    · rw [h1] at h
      dsimp only at h
      rcases h2 : createAll u1 (blockOutputs b) with e | u2
      · rw [h2] at h; cases h
      · rw [h2] at h
        simp only [Except.ok.injEq] at h
        exact Or.inr ⟨rfl, u1, u2, rfl, h2, h.symm⟩
  · rw [hb] at h
    simp only [if_true, Except.ok.injEq] at h
    exact Or.inl ⟨rfl, h.symm⟩


end JioBlock


namespace JioBlock

/-! ## Part 3: claim theorems -/

/-! ### C9: `formatHash` / `formatAddress` -/

/-- C9: for every string and every positive truncation length, `formatHash`
returns the string unchanged when it has at most twice that many
characters, and otherwise returns the first `len` characters, an
ellipsis, then the last `len` characters, for a total of exactly
`2 * len + 3` characters; `formatAddress` is `formatHash` at length 12. -/
theorem formatHash_spec (hash : List Char) (len : Nat) (hlen : 0 < len) :
    (hash.length ≤ 2 * len → formatHash hash len = hash) ∧
    (2 * len < hash.length →
      formatHash hash len =
        hash.take len ++ ellipsis ++ hash.drop (hash.length - len) ∧
      (formatHash hash len).length = 2 * len + 3) ∧
    formatAddress hash = formatHash hash 12 := by
  refine ⟨fun hshort => ?_, fun hlong => ⟨?_, ?_⟩, rfl⟩
  · unfold formatHash
    rw [if_pos (by omega)]
  · unfold formatHash jsSliceNeg
    rw [if_neg (by omega), if_neg (by omega)]
  · unfold formatHash jsSliceNeg
    rw [if_neg (by omega), if_neg (by omega)]
    have h3 : ellipsis.length = 3 := rfl
    simp only [List.length_append, List.length_take, List.length_drop, h3]
    omega

/-- Witness for C9 at `hash = "abcdefghij"`, `len = 4`. -/
theorem formatHash_spec_witness :
    ((String.toList "abcdefghij").length ≤ 2 * 4 →
      formatHash (String.toList "abcdefghij") 4 = String.toList "abcdefghij") ∧
    (2 * 4 < (String.toList "abcdefghij").length →
      formatHash (String.toList "abcdefghij") 4 =
        (String.toList "abcdefghij").take 4 ++ ellipsis ++
          (String.toList "abcdefghij").drop ((String.toList "abcdefghij").length - 4) ∧
      (formatHash (String.toList "abcdefghij") 4).length = 2 * 4 + 3) ∧
    formatAddress (String.toList "abcdefghij") =
      formatHash (String.toList "abcdefghij") 12 :=
  formatHash_spec (String.toList "abcdefghij") 4 (by decide)

end JioBlock

namespace JioBlock

/-! ### C10: `formatBytes` -/

/-- One iteration of the `formatBytes` loop. -/
theorem formatBytesLoop_step (size : ℚ) (idx : Nat) (h1 : 1024 ≤ size)
    (h2 : idx < 3) :
    formatBytesLoop size idx = formatBytesLoop (size / 1024) (idx + 1) := by
  rw [formatBytesLoop]
  exact dif_pos ⟨h1, h2⟩

/-- Loop exit: the value is below 1024 or the unit list is exhausted. -/
theorem formatBytesLoop_stop (size : ℚ) (idx : Nat)
    (h : ¬(1024 ≤ size ∧ idx < 3)) :
    formatBytesLoop size idx = (size, idx) := by
  rw [formatBytesLoop]
  exact dif_neg h

/-- C10: on a non-negative byte count the `formatBytes` loop divides by
1024 at most three times — the result is `bytes / 1024 ^ k` where `k` is
the number of divisions — it stops exactly when the value drops below
1024 or the unit list is exhausted (every earlier value was at least
1024), an input below 1024 is rendered unchanged in unit B, an input of
at least `1024 ^ 3` always reaches unit GB, and the rendered result is
the two-decimal rendering of the final value followed by the chosen
unit. -/
theorem formatBytes_spec (bytes : ℚ) (h0 : 0 ≤ bytes) :
    (formatBytesLoop bytes 0).2 ≤ 3 ∧
    (formatBytesLoop bytes 0).1 = bytes / 1024 ^ (formatBytesLoop bytes 0).2 ∧
    ((formatBytesLoop bytes 0).1 < 1024 ∨ (formatBytesLoop bytes 0).2 = 3) ∧
    (∀ k, k < (formatBytesLoop bytes 0).2 → 1024 ≤ bytes / 1024 ^ k) ∧
    (bytes < 1024 → formatBytesLoop bytes 0 = (bytes, 0)) ∧
    ((1024 : ℚ) ^ 3 ≤ bytes → (formatBytesLoop bytes 0).2 = 3) ∧
    formatBytes bytes =
      toFixed2 (formatBytesLoop bytes 0).1 ++ " " ++
        byteUnits.getD (formatBytesLoop bytes 0).2 "" := by
  have h1024 : (0 : ℚ) < 1024 := by norm_num
  by_cases hA : bytes < 1024
  · have hr : formatBytesLoop bytes 0 = (bytes, 0) :=
      formatBytesLoop_stop _ _ (by rintro ⟨h, -⟩; linarith)
    have hfb : formatBytes bytes =
        toFixed2 (formatBytesLoop bytes 0).1 ++ " " ++
          byteUnits.getD (formatBytesLoop bytes 0).2 "" := rfl
    rw [hr] at hfb ⊢
    refine ⟨by norm_num, by norm_num, Or.inl hA, by omega, fun _ => rfl,
      fun h3 => absurd h3 (by push_neg; nlinarith), hfb⟩
  · push_neg at hA
    by_cases hB : bytes < 1024 * 1024
    · have hstop : bytes / 1024 < 1024 := (div_lt_iff₀ h1024).2 hB
      have hr : formatBytesLoop bytes 0 = (bytes / 1024, 1) := by
        rw [formatBytesLoop_step bytes 0 hA (by norm_num),
          formatBytesLoop_stop _ _ (by rintro ⟨h, -⟩; linarith)]
      have hfb : formatBytes bytes =
          toFixed2 (formatBytesLoop bytes 0).1 ++ " " ++
            byteUnits.getD (formatBytesLoop bytes 0).2 "" := rfl
      rw [hr] at hfb ⊢
      refine ⟨by norm_num, by rw [pow_one], Or.inl hstop, ?_, fun h => absurd h (by linarith),
        fun h3 => absurd h3 (by push_neg; nlinarith), hfb⟩
      intro k hk
      interval_cases k
      simpa using hA
    · push_neg at hB
      by_cases hC : bytes < 1024 * 1024 * 1024
      · have hge : (1024 : ℚ) ≤ bytes / 1024 := (le_div_iff₀ h1024).2 (by linarith)
        have hstop : bytes / 1024 / 1024 < 1024 := by
          rw [div_div, div_lt_iff₀ (by norm_num : (0:ℚ) < 1024 * 1024)]
          linarith
        have hr : formatBytesLoop bytes 0 = (bytes / 1024 / 1024, 2) := by
          rw [formatBytesLoop_step bytes 0 hA (by norm_num),
            formatBytesLoop_step _ _ hge (by norm_num),
            formatBytesLoop_stop _ _ (by rintro ⟨h, -⟩; linarith)]
        have hfb : formatBytes bytes =
            toFixed2 (formatBytesLoop bytes 0).1 ++ " " ++
              byteUnits.getD (formatBytesLoop bytes 0).2 "" := rfl
        rw [hr] at hfb ⊢
        refine ⟨by norm_num, ?_, Or.inl hstop, ?_, fun h => absurd h (by linarith),
          fun h3 => absurd h3 (by push_neg; nlinarith), hfb⟩
        · rw [div_div, show ((1024 : ℚ) ^ 2) = 1024 * 1024 by norm_num]
        · intro k hk
          interval_cases k
          · simpa using hA
          · rw [pow_one]; exact hge
      · push_neg at hC
        have hge1 : (1024 : ℚ) ≤ bytes / 1024 := by
          rw [le_div_iff₀ h1024]; nlinarith
        have hge2 : (1024 : ℚ) ≤ bytes / 1024 / 1024 := by
          rw [div_div, le_div_iff₀ (by norm_num : (0:ℚ) < 1024 * 1024)]
          nlinarith
        have hr : formatBytesLoop bytes 0 = (bytes / 1024 / 1024 / 1024, 3) := by
          rw [formatBytesLoop_step bytes 0 hA (by norm_num),
            formatBytesLoop_step _ _ hge1 (by norm_num),
            formatBytesLoop_step _ _ hge2 (by norm_num),
            formatBytesLoop_stop _ _ (by rintro ⟨-, h⟩; omega)]
        have hfb : formatBytes bytes =
            toFixed2 (formatBytesLoop bytes 0).1 ++ " " ++
              byteUnits.getD (formatBytesLoop bytes 0).2 "" := rfl
        rw [hr] at hfb ⊢
        refine ⟨le_refl 3, ?_, Or.inr rfl, ?_, fun h => absurd h (by linarith),
          fun _ => rfl, hfb⟩
        · rw [div_div, div_div, show ((1024 : ℚ) ^ 3) = 1024 * (1024 * 1024) by norm_num]
        · intro k hk
          interval_cases k
          · simpa using hA
          · rw [pow_one]; exact hge1
          · rw [show ((1024 : ℚ) ^ 2) = 1024 * 1024 by norm_num, ← div_div]
            exact hge2

/-- Every `toFixed(2)` rendering carries exactly two fractional digits. -/
theorem toFixed2_shape (q : ℚ) :
    ∃ m : Nat,
      toFixed2 q = Nat.repr (m / 100) ++ "." ++ String.mk (toFixed2Digits (m % 100)) ∧
      (String.mk (toFixed2Digits (m % 100))).length = 2 :=
  ⟨(Int.floor (q * 100 + 1 / 2)).toNat, rfl, rfl⟩

/-- Witness for C10 at `bytes = 5 * 1024 ^ 3` (rendered in GB). -/
theorem formatBytes_spec_witness :
    (formatBytesLoop (5 * 1024 ^ 3) 0).2 ≤ 3 ∧
    (formatBytesLoop (5 * 1024 ^ 3) 0).1 =
      (5 * 1024 ^ 3 : ℚ) / 1024 ^ (formatBytesLoop (5 * 1024 ^ 3) 0).2 ∧
    ((formatBytesLoop (5 * 1024 ^ 3) 0).1 < 1024 ∨
      (formatBytesLoop (5 * 1024 ^ 3) 0).2 = 3) ∧
    (∀ k, k < (formatBytesLoop (5 * 1024 ^ 3) 0).2 →
      1024 ≤ (5 * 1024 ^ 3 : ℚ) / 1024 ^ k) ∧
    ((5 * 1024 ^ 3 : ℚ) < 1024 → formatBytesLoop (5 * 1024 ^ 3) 0 = (5 * 1024 ^ 3, 0)) ∧
    ((1024 : ℚ) ^ 3 ≤ 5 * 1024 ^ 3 → (formatBytesLoop (5 * 1024 ^ 3) 0).2 = 3) ∧
    formatBytes (5 * 1024 ^ 3) =
      toFixed2 (formatBytesLoop (5 * 1024 ^ 3) 0).1 ++ " " ++
        byteUnits.getD (formatBytesLoop (5 * 1024 ^ 3) 0).2 "" :=
  formatBytes_spec (5 * 1024 ^ 3) (by norm_num)

end JioBlock

namespace JioBlock

/-! ### C7: WebSocket event contract -/

/-- C7: every emitted event is exactly one of the four contract types —
its `type` discriminant is one of the four literals, and each type
literal identifies a unique payload shape: `block:new` always carries a
`BlockSummary`, `transaction:new` a `TransactionSummary`,
`mempool:update` a `{size, bytes, transactions[]}` record and
`network:stats` a `NetworkStats` snapshot; no other type name occurs. -/
theorem wsEvent_contract :
    (∀ e : WSEvent,
      e.eventType = "block:new" ∨ e.eventType = "transaction:new" ∨
      e.eventType = "mempool:update" ∨ e.eventType = "network:stats") ∧
    (∀ e : WSEvent, e.eventType = "block:new" ↔ ∃ d, e = .blockNew d) ∧
    (∀ e : WSEvent, e.eventType = "transaction:new" ↔ ∃ d, e = .transactionNew d) ∧
    (∀ e : WSEvent, e.eventType = "mempool:update" ↔ ∃ d, e = .mempoolUpdate d) ∧
    (∀ e : WSEvent, e.eventType = "network:stats" ↔ ∃ d, e = .networkStats d) := by
  refine ⟨fun e => ?_, fun e => ?_, fun e => ?_, fun e => ?_, fun e => ?_⟩ <;>
    cases e <;> simp [WSEvent.eventType]

/-! ### C8: persisted Block / BlockParent columns -/

/-- C8 counterexample: the `blocks` table does not consist of exactly the
columns the specification lists — it also has `created_at`. -/
theorem blocksColumns_ne_spec :
    blocksColumns ≠ specBlockColumns ∧
    "created_at" ∈ blocksColumns ∧ "created_at" ∉ specBlockColumns := by
  refine ⟨by decide, by decide, by decide⟩

/-- C8 amended: the `blocks` table has exactly the specified columns
plus a final `created_at`, and `block_parents` has exactly
`block_hash`, `parent_hash`, `level`. -/
theorem blocksColumns_amended :
    blocksColumns = specBlockColumns ++ ["created_at"] ∧
    blockParentsColumns = specBlockParentColumns := ⟨rfl, rfl⟩

end JioBlock

namespace JioBlock

/-! ### Demo fixtures: the genesis/spend scenario of spec section 8 -/

/-! ### C1: idempotence of `applyBlock` -/

/-- C1: applying an accepted block twice produces a store identical to
applying it once — after any successful apply the block hash is present
under the Block primary key, and a re-apply detects it and is a no-op
returning the same store. -/
theorem applyBlock_idempotent (s s2 : Store) (b : FeedBlock)
    (h : applyBlock s b = .ok s2) :
    containsKey s2.blocks b.hash = true ∧ applyBlock s2 b = .ok s2 := by
  have hmem : containsKey s2.blocks b.hash = true := by
    rcases applyBlock_ok_elim h with ⟨hc, hs⟩ | ⟨hc, u1, u2, h1, h2, hs⟩
    · rw [hs]; exact hc
    · rw [hs]
      show (lookupA (s.blocks ++ [(b.hash, blockRowOf b)]) b.hash).isSome = true
      rw [lookupA_append_right (by
        rw [lookupA_eq_none]
        intro hk
        rw [← containsKey_iff] at hk
        rw [hk] at hc
        cases hc)]
      rw [lookupA_cons, if_pos rfl]
      rfl
  refine ⟨hmem, ?_⟩
  unfold applyBlock
  rw [hmem]
  simp only [if_true]

/-- Witness for C1: re-applying the already-applied genesis block is a
no-op. -/
theorem applyBlock_idempotent_witness :
    containsKey demoStoreG.blocks demoGenesis.hash = true ∧
    applyBlock demoStoreG demoGenesis = .ok demoStoreG :=
  applyBlock_idempotent emptyStore demoStoreG demoGenesis (by decide)

end JioBlock

namespace JioBlock

/-! ### C5: atomicity and `DanglingReference` -/

/-- When some referenced outpoint is missing and no earlier failure can
intervene (present references unspent, no duplicate references), the
spend phase fails with `DanglingReference`. -/
theorem spendAll_dangling (u : List (TxOutPoint × UtxoRow))
    (sp : List (TxOutPoint × (String × Nat)))
    (hex : ∃ p ∈ sp.map Prod.fst, lookupA u p = none)
    (hcl : ∀ p ∈ sp.map Prod.fst, ∀ r, lookupA u p = some r → r.isSpent = false)
    (hnd : (sp.map Prod.fst).Nodup) :
    spendAll u sp = .error .danglingReference := by
  induction sp generalizing u with
  | nil =>
      obtain ⟨p, hp, -⟩ := hex
      cases hp
  | cons pw rest ih =>
      rcases pw with ⟨p, who⟩
      rw [List.map_cons] at hex hcl hnd
      unfold spendAll
      rcases hl : lookupA u p with - | r
      · unfold spendOne
        rw [hl]
      · have hs : r.isSpent = false :=
          hcl p (List.mem_cons_self _ _) r hl
        have hso : spendOne u p who = .ok (updateA u p (markRow who)) := by
          unfold spendOne
          rw [hl]
          dsimp only
          rw [hs]
          simp
        rw [hso]
        have hpnotin : p ∉ rest.map Prod.fst := (List.nodup_cons.1 hnd).1
        refine ih (updateA u p (markRow who)) ?_ ?_ (List.nodup_cons.1 hnd).2
        · obtain ⟨q, hq, hqn⟩ := hex
          have hqp : q ≠ p := by
            intro he
            rw [he, hl] at hqn
            cases hqn
          rcases List.mem_cons.1 hq with h2 | h2
          · exact absurd h2 hqp
          · exact ⟨q, h2, by
              rw [lookupA_updateA_ne _ _ _ _ (fun c => hqp c.symm)]
              exact hqn⟩
        · intro q hq r2 hl2
          have hqp : q ≠ p := fun he => hpnotin (he ▸ hq)
          rw [lookupA_updateA_ne _ _ _ _ (fun c => hqp c.symm)] at hl2
          exact hcl q (List.mem_cons_of_mem _ hq) r2 hl2

/-- C5: `applyBlock` is all-or-nothing — any failing apply leaves the
store untouched — and in particular a block with a fresh hash, some
input referencing a missing output, all present references unspent and
no duplicate reference fails with `DanglingReference` (and hence leaves
no partial effect). -/
theorem applyBlock_atomic (s : Store) (b : FeedBlock) :
    (∀ e, applyBlock s b = .error e → ingest s b = s) ∧
    (containsKey s.blocks b.hash = false →
      (referencedOutpoints b).any (fun p => !containsKey s.utxos p) = true →
      (referencedOutpoints b).all
        (fun p => (lookupA s.utxos p).elim true (fun r => !r.isSpent)) = true →
      (referencedOutpoints b).Nodup →
      applyBlock s b = .error .danglingReference) := by
  constructor
  · intro e h
    unfold ingest
    rw [h]
  · intro hb hany hall hnd
    have hsp : spendAll s.utxos (blockSpends b) = .error .danglingReference := by
      refine spendAll_dangling _ _ ?_ ?_ hnd
      · obtain ⟨p, hp, hnp⟩ := List.any_eq_true.1 hany
        refine ⟨p, hp, ?_⟩
        have hcf : containsKey s.utxos p = false := by simpa using hnp
        rw [lookupA_eq_none]
        exact containsKey_eq_false.1 hcf
      · intro p hp r hl
        have := List.all_eq_true.1 hall p hp
        rw [hl] at this
        simpa using this
    unfold applyBlock
    rw [hb]
    simp only [Bool.false_eq_true, if_false]
    rw [hsp]

/-- Witness for C5: the dangling block fails with `DanglingReference`
and leaves the store unchanged. -/
theorem applyBlock_atomic_witness :
    applyBlock demoStoreG demoDangling = .error .danglingReference ∧
    ingest demoStoreG demoDangling = demoStoreG := by
  have h := applyBlock_atomic demoStoreG demoDangling
  have he : applyBlock demoStoreG demoDangling = .error .danglingReference :=
    h.2 (by decide) (by decide) (by decide) (by decide)
  exact ⟨he, h.1 .danglingReference he⟩

end JioBlock

namespace JioBlock

/-! ### C6: mempool lifecycle -/

theorem mem_keysA_filter_key {α β : Type} [DecidableEq α]
    (l : List (α × β)) (q : α → Bool) (k : α) :
    k ∈ keysA (l.filter fun kv => q kv.1) ↔ k ∈ keysA l ∧ q k = true := by
  induction l with
  | nil => simp [keysA_nil]
  | cons kv t ih =>
      rw [List.filter_cons]
      by_cases hq : q kv.1 = true
      · rw [if_pos hq, keysA_cons, keysA_cons]
        simp only [List.mem_cons]
        constructor
        · rintro (he | hm)
          · exact ⟨Or.inl he, he ▸ hq⟩
          · have h2 := ih.1 hm
            exact ⟨Or.inr h2.1, h2.2⟩
        · rintro ⟨he | hm, hqq⟩
          · exact Or.inl he
          · exact Or.inr (ih.2 ⟨hm, hqq⟩)
      · rw [if_neg hq, keysA_cons]
        constructor
        · intro hm
          have h2 := ih.1 hm
          exact ⟨List.mem_cons_of_mem _ h2.1, h2.2⟩
        · rintro ⟨hm, hqq⟩
          rcases List.mem_cons.1 hm with he | hm2
          · exact absurd (he ▸ hqq) hq
          · exact ih.2 ⟨hm2, hqq⟩

theorem mem_keysA_removeMempool (mp : List (String × MempoolRow))
    (hs : List String) (k : String) :
    k ∈ keysA (removeMempool mp hs) ↔ k ∈ keysA mp ∧ k ∉ hs := by
  unfold removeMempool
  exact (mem_keysA_filter_key mp (fun a => decide (a ∉ hs)) k).trans (by simp)

theorem map_enumFrom {γ δ : Type} (l : List γ) (f : γ → δ) :
    ∀ n, (List.enumFrom n l).map (fun p => f p.2) = l.map f := by
  induction l with
  | nil => intro n; rfl
  | cons x t ih =>
      intro n
      rw [List.enumFrom, List.map_cons, List.map_cons, ih]

theorem keysA_newTxRows (b : FeedBlock) : keysA (newTxRows b) = txHashes b := by
  unfold keysA newTxRows txHashes List.enum
  rw [List.map_map]
  exact map_enumFrom b.txs FeedTx.hash 0

/-- The in-place part of `upsertTxRows` keeps every key. -/
theorem keysA_upsert_map_part (txs rows : List (String × TxRow)) :
    keysA (txs.map fun kv =>
      match lookupA rows kv.1 with
      | some r => (kv.1, r)
      | none => kv) = keysA txs := by
  induction txs with
  | nil => rfl
  | cons kv t ih =>
      rw [List.map_cons, keysA_cons, keysA_cons, ih]
      rcases hl : lookupA rows kv.1 with - | r <;> simp [hl]

theorem lookupA_upsert_map_part (txs rows : List (String × TxRow)) (h : String)
    (hnone : lookupA rows h = none) :
    lookupA (txs.map fun kv =>
      match lookupA rows kv.1 with
      | some r => (kv.1, r)
      | none => kv) h = lookupA txs h := by
  induction txs with
  | nil => rfl
  | cons kv t ih =>
      rw [List.map_cons, lookupA_cons]
      by_cases he : kv.1 = h
      · rcases hl : lookupA rows kv.1 with - | r
        · simp [hl, lookupA_cons, he]
        · rw [he] at hl
          rw [hl] at hnone
          cases hnone
      · rcases hl : lookupA rows kv.1 with - | r <;> simp [hl, lookupA_cons, he, ih]

theorem lookupA_upsertTxRows_ne (txs rows : List (String × TxRow)) (h : String)
    (hk : h ∉ keysA rows) :
    lookupA (upsertTxRows txs rows) h = lookupA txs h := by
  have hnone : lookupA rows h = none := lookupA_eq_none.2 hk
  unfold upsertTxRows
  by_cases hin : h ∈ keysA txs
  · rcases hl : lookupA txs h with - | r
    · rw [lookupA_eq_none] at hl
      exact absurd hin hl
    · rw [lookupA_append_left (by rw [lookupA_upsert_map_part txs rows h hnone]; exact hl)]
  · rw [lookupA_append_right (by
      rw [lookupA_eq_none, keysA_upsert_map_part]
      exact hin)]
    rw [lookupA_eq_none.2 hin, lookupA_eq_none]
    intro hmem
    exact hk ((mem_keysA_filter_key rows (fun a => !containsKey txs a) h).1 hmem).1

theorem lookupA_txs_runOp (s : Store) (op : MempoolOp) (h : String)
    (hop : ∀ b, op = .apply b → h ∉ txHashes b) :
    lookupA (runOp s op).txs h = lookupA s.txs h := by
  rcases op with ⟨h2, size, fee, now⟩ | b | cutoff
  · rfl
  · have hnb : h ∉ txHashes b := hop b rfl
    show lookupA (ingest s b).txs h = lookupA s.txs h
    unfold ingest
    rcases ha : applyBlock s b with e | s2
    · rfl
    · rcases applyBlock_ok_elim ha with ⟨-, hs⟩ | ⟨-, u1, u2, -, -, hs⟩
      · rw [hs]
      · rw [hs]
        show lookupA (upsertTxRows s.txs (newTxRows b)) h = lookupA s.txs h
        rw [lookupA_upsertTxRows_ne]
        rw [keysA_newTxRows]
        exact hnb
  · rfl

/-- C6: a mempool transaction is removed by a (fresh, successful) block
apply exactly when the block confirms it; TTL eviction and observation
never touch the Transaction table (so eviction never marks anything
confirmed); and along any operation sequence containing no block that
carries a hash, no Transaction row for that hash — confirmed or
otherwise — ever appears. -/
theorem mempool_lifecycle :
    (∀ s b s2 h, containsKey s.blocks b.hash = false →
      applyBlock s b = .ok s2 →
      h ∈ keysA s.mempool →
      (h ∉ keysA s2.mempool ↔ h ∈ txHashes b)) ∧
    (∀ s cutoff, (evictMempool s cutoff).txs = s.txs) ∧
    (∀ s h size fee now, (runOp s (.observe h size fee now)).txs = s.txs) ∧
    (∀ s ops h, lookupA s.txs h = none →
      (∀ b, MempoolOp.apply b ∈ ops → h ∉ txHashes b) →
      lookupA (runOps s ops).txs h = none) := by
  refine ⟨?_, fun s cutoff => rfl, fun s h size fee now => rfl, ?_⟩
  · intro s b s2 h hb ha hmem
    rcases applyBlock_ok_elim ha with ⟨hc, -⟩ | ⟨-, u1, u2, -, -, hs⟩
    · rw [hb] at hc; cases hc
    · rw [hs]
      show h ∉ keysA (removeMempool s.mempool (txHashes b)) ↔ h ∈ txHashes b
      rw [mem_keysA_removeMempool]
      constructor
      · intro hno
        by_contra hni
        exact hno ⟨hmem, hni⟩
      · rintro hin ⟨-, hno⟩
        exact hno hin
  · intro s ops h h0 hops
    induction ops generalizing s with
    | nil => exact h0
    | cons op rest ih =>
        rw [runOps]
        refine ih (runOp s op) ?_ ?_
        · rw [lookupA_txs_runOp s op h
            (fun b he => hops b (by rw [he]; exact List.mem_cons_self _ _))]
          exact h0
        · intro b hb
          exact hops b (List.mem_cons_of_mem _ hb)

/-- Witness for C6: applying the confirming block removes `t1` from the
mempool; eviction leaves the Transaction table alone; a trace that never
applies a block keeps the Transaction table empty for `x`. -/
theorem mempool_lifecycle_witness :
    ("t1" ∉ keysA (ingest demoMpStore demoBlock1).mempool ↔
      "t1" ∈ txHashes demoBlock1) ∧
    (evictMempool demoMpStore 1000).txs = demoMpStore.txs ∧
    lookupA (runOps emptyStore
      [.observe "x" 1 1 1, .evict 5, .observe "x" 1 1 9]).txs "x" = none := by
  refine ⟨?_, mempool_lifecycle.2.1 demoMpStore 1000, ?_⟩
  · exact mempool_lifecycle.1 demoMpStore demoBlock1 (ingest demoMpStore demoBlock1)
      "t1" (by decide) (by decide) (by decide)
  · refine mempool_lifecycle.2.2.2 emptyStore _ "x" (by decide) ?_
    intro b hb
    rcases List.mem_cons.1 hb with h2 | h2
    · cases h2
    rcases List.mem_cons.1 h2 with h3 | h3
    · cases h3
    rcases List.mem_cons.1 h3 with h4 | h4
    · cases h4
    cases h4

end JioBlock

namespace JioBlock

/-! ### C2: reorg reversal helpers -/

theorem filter_all_true {γ : Type} (l : List γ) (p : γ → Bool)
    (h : ∀ a ∈ l, p a = true) : l.filter p = l := by
  induction l with
  | nil => rfl
  | cons x t ih =>
      rw [List.filter_cons, if_pos (h x (List.mem_cons_self _ _)),
        ih fun a hm => h a (List.mem_cons_of_mem _ hm)]

theorem filter_all_false {γ : Type} (l : List γ) (p : γ → Bool)
    (h : ∀ a ∈ l, p a = false) : l.filter p = [] := by
  induction l with
  | nil => rfl
  | cons x t ih =>
      rw [List.filter_cons, if_neg (by simp [h x (List.mem_cons_self _ _)]),
        ih fun a hm => h a (List.mem_cons_of_mem _ hm)]

theorem map_self_of {γ : Type} (l : List γ) (f : γ → γ)
    (h : ∀ a ∈ l, f a = a) : l.map f = l := by
  induction l with
  | nil => rfl
  | cons x t ih =>
      rw [List.map_cons, h x (List.mem_cons_self _ _),
        ih fun a hm => h a (List.mem_cons_of_mem _ hm)]

theorem filterMap_all_some {γ : Type} (l : List γ) (f : γ → Option γ)
    (h : ∀ a ∈ l, f a = some a) : l.filterMap f = l := by
  induction l with
  | nil => rfl
  | cons x t ih =>
      rw [List.filterMap_cons, h x (List.mem_cons_self _ _),
        ih fun a hm => h a (List.mem_cons_of_mem _ hm)]

theorem filterMap_all_none {γ δ : Type} (l : List γ) (f : γ → Option δ)
    (h : ∀ a ∈ l, f a = none) : l.filterMap f = [] := by
  induction l with
  | nil => rfl
  | cons x t ih =>
      rw [List.filterMap_cons, h x (List.mem_cons_self _ _),
        ih fun a hm => h a (List.mem_cons_of_mem _ hm)]

theorem lookupA_some_mem {α β : Type} [DecidableEq α]
    {l : List (α × β)} {k : α} {v : β}
    (h : lookupA l k = some v) : (k, v) ∈ l := by
  induction l with
  | nil => cases h
  | cons kv t ih =>
      rw [lookupA_cons] at h
      by_cases he : kv.1 = k
      · rw [if_pos he] at h
        injection h with h2
        have he2 : (k, v) = kv := by
          rw [← he, ← h2]
        rw [he2]
        exact List.mem_cons_self _ _
      · rw [if_neg he] at h
        exact List.mem_cons_of_mem _ (ih h)

theorem removeA_singleton_self {α β : Type} [DecidableEq α] (k : α) (v : β) :
    removeA [(k, v)] k = [] := by
  unfold removeA
  rw [List.filter_cons, if_neg (by simp)]
  rfl

theorem removeMempool_idem (mp : List (String × MempoolRow)) (hs : List String) :
    removeMempool (removeMempool mp hs) hs = removeMempool mp hs := by
  unfold removeMempool
  rw [List.filter_filter]
  have : (fun kv : String × MempoolRow =>
      decide (kv.1 ∉ hs) && decide (kv.1 ∉ hs)) =
      fun kv : String × MempoolRow => decide (kv.1 ∉ hs) := by
    funext kv
    exact Bool.and_self _
  rw [this]

/-- `upsertTxRows` on fresh rows is a plain append. -/
theorem upsertTxRows_fresh (txs rows : List (String × TxRow))
    (hdisj : ∀ kv ∈ txs, kv.1 ∉ keysA rows) :
    upsertTxRows txs rows = txs ++ rows := by
  unfold upsertTxRows
  have h1 : (txs.map fun kv =>
      match lookupA rows kv.1 with
      | some r => (kv.1, r)
      | none => kv) = txs := by
    refine map_self_of _ _ fun kv hm => ?_
    rw [lookupA_eq_none.2 (hdisj kv hm)]
  have h2 : (rows.filter fun kv => !containsKey txs kv.1) = rows := by
    refine filter_all_true _ _ fun kv hm => ?_
    have hk : kv.1 ∉ keysA txs := by
      intro hk
      obtain ⟨kv2, hm2, he2⟩ := List.mem_map.1 hk
      exact hdisj kv2 hm2 (he2 ▸ List.mem_map_of_mem Prod.fst hm)
    simp [containsKey_eq_false.2 hk]
  rw [h1, h2]

/-- A keyed filter passes through `markSpends`. -/
theorem filter_key_markSpends (u : List (TxOutPoint × UtxoRow))
    (sp : List (TxOutPoint × (String × Nat))) (q : TxOutPoint → Bool) :
    (markSpends u sp).filter (fun kv => q kv.1) =
      markSpends (u.filter fun kv => q kv.1) sp := by
  induction sp generalizing u with
  | nil => rfl
  | cons pw rest ih =>
      rcases pw with ⟨p, who⟩
      rw [markSpends, markSpends, ih, filter_key_updateA]

/-- An update under a key not spent by `sp` passes through `markSpends`. -/
theorem updateA_markSpends_comm (u : List (TxOutPoint × UtxoRow))
    (sp : List (TxOutPoint × (String × Nat))) (q : TxOutPoint)
    (f : UtxoRow → UtxoRow) (h : q ∉ sp.map Prod.fst) :
    updateA (markSpends u sp) q f = markSpends (updateA u q f) sp := by
  induction sp generalizing u with
  | nil => rfl
  | cons pw rest ih =>
      rcases pw with ⟨p, who⟩
      rw [List.map_cons, List.mem_cons] at h
      push_neg at h
      rw [markSpends, markSpends, ih _ h.2,
        updateA_comm _ _ _ _ _ (fun c => h.1 c.symm)]

theorem unmarkRow_eq_self (r : UtxoRow) (h1 : r.isSpent = false)
    (h2 : r.spentBy = none) : unmarkRow r = r := by
  cases r
  simp [unmarkRow] at h1 h2 ⊢
  exact ⟨h1, h2.symm⟩

/-- Unmarking every spend of a successful mark round restores the
original table. -/
theorem unmark_markSpends (sp : List (TxOutPoint × (String × Nat)))
    (u : List (TxOutPoint × UtxoRow))
    (hnd : NodupKeys u) (hndsp : (sp.map Prod.fst).Nodup)
    (hrefs : ∀ pw ∈ sp, ∃ r, lookupA u pw.1 = some r ∧
      r.isSpent = false ∧ r.spentBy = none) :
    unmarkAll (markSpends u sp) (sp.map Prod.fst) = u := by
  induction sp generalizing u with
  | nil => rfl
  | cons pw rest ih =>
      rcases pw with ⟨p, who⟩
      rw [List.map_cons] at hndsp ⊢
      rw [markSpends, unmarkAll,
        updateA_markSpends_comm _ _ _ _ (List.nodup_cons.1 hndsp).1,
        updateA_updateA_same]
      obtain ⟨r, hl, hs, hb⟩ := hrefs (p, who) (List.mem_cons_self _ _)
      have hupd : updateA u p (fun b => unmarkRow (markRow who b)) = u := by
        refine updateA_congr_id _ _ _ fun kv hm he => ?_
        have hlm := lookupA_mem hm hnd
        rw [he, hl] at hlm
        injection hlm with h2
        show unmarkRow (markRow who kv.2) = kv.2
        have : unmarkRow (markRow who kv.2) = unmarkRow kv.2 := rfl
        rw [this, ← h2]
        exact unmarkRow_eq_self r hs hb
      rw [hupd]
      refine ih u hnd (List.nodup_cons.1 hndsp).2 fun pw2 hm => ?_
      exact hrefs pw2 (List.mem_cons_of_mem _ hm)

end JioBlock

namespace JioBlock

theorem keysA_map_self {α β : Type} [DecidableEq α] (ks : List α) (f : α → β) :
    keysA (ks.map fun x => (x, f x)) = ks := by
  unfold keysA
  rw [List.map_map]
  exact map_self_of _ _ fun a hm => rfl

theorem lookupA_map_self_mem {α β : Type} [DecidableEq α]
    (ks : List α) (f : α → β) {a : α} (h : a ∈ ks) :
    lookupA (ks.map fun x => (x, f x)) a = some (f a) := by
  induction ks with
  | nil => cases h
  | cons x t ih =>
      rw [List.map_cons, lookupA_cons]
      by_cases he : x = a
      · rw [if_pos he, he]
      · rw [if_neg he]
        rcases List.mem_cons.1 h with h2 | h2
        · exact absurd h2.symm he
        · exact ih h2

theorem lookupA_map_self_not_mem {α β : Type} [DecidableEq α]
    (ks : List α) (f : α → β) {a : α} (h : a ∉ ks) :
    lookupA (ks.map fun x => (x, f x)) a = none := by
  rw [lookupA_eq_none, keysA_map_self]
  exact h

/-- `restoreAddrs` distributes over table concatenation. -/
theorem restoreAddrs_append (l1 l2 : List (String × AddressRow))
    (e : JournalEntry) :
    restoreAddrs (l1 ++ l2) e = restoreAddrs l1 e ++ restoreAddrs l2 e := by
  unfold restoreAddrs
  exact List.filterMap_append _ _ _

/-- Restoring the journal entry recorded for a batched delta set rewinds
the address table exactly. -/
theorem restore_applyDeltas (addrs : List (String × AddressRow))
    (ks : List String) (g : String → Option AddressRow → AddressRow)
    (hnd : NodupKeys addrs) :
    restoreAddrs (applyDeltas addrs ks g) (journalEntryOf addrs ks) = addrs := by
  unfold applyDeltas
  rw [restoreAddrs_append]
  have h1 : restoreAddrs
      (addrs.map fun kv => if kv.1 ∈ ks then (kv.1, g kv.1 (some kv.2)) else kv)
      (journalEntryOf addrs ks) = addrs := by
    unfold restoreAddrs journalEntryOf
    dsimp only
    rw [List.filterMap_map]
    refine filterMap_all_some _ _ fun kv hm => ?_
    simp only [Function.comp_apply]
    have hlm : lookupA addrs kv.1 = some kv.2 := lookupA_mem hm hnd
    by_cases hk : kv.1 ∈ ks
    · rw [if_pos hk]
      show (match lookupA (ks.map fun a => (a, lookupA addrs a)) kv.1 with
        | none => some ((kv.1 : String), g kv.1 (some kv.2))
        | some none => none
        | some (some r) => some (kv.1, r)) = some kv
      rw [lookupA_map_self_mem ks (fun a => lookupA addrs a) hk, hlm]
    · rw [if_neg hk]
      show (match lookupA (ks.map fun a => (a, lookupA addrs a)) kv.1 with
        | none => some kv
        | some none => none
        | some (some r) => some (kv.1, r)) = some kv
      rw [lookupA_map_self_not_mem ks (fun a => lookupA addrs a) hk]
  have h2 : restoreAddrs
      ((ks.filter fun a => !containsKey addrs a).map fun a => (a, g a none))
      (journalEntryOf addrs ks) = [] := by
    unfold restoreAddrs journalEntryOf
    dsimp only
    rw [List.filterMap_map]
    refine filterMap_all_none _ _ fun a hm => ?_
    simp only [Function.comp_apply]
    have hm2 := List.mem_filter.1 hm
    have hnone : lookupA addrs a = none := by
      rcases hc : containsKey addrs a with - | -
      · rw [lookupA_eq_none]
        exact containsKey_eq_false.1 hc
      · rw [hc] at hm2
        cases hm2.2
    show (match lookupA (ks.map fun x => (x, lookupA addrs x)) (a, g a none).1 with
      | none => some (a, g a none)
      | some none => none
      | some (some r) => some ((a, g a none).1, r)) = none
    have ha : ((a, g a none) : String × AddressRow).1 = a := rfl
    rw [ha, lookupA_map_self_mem ks (fun x => lookupA addrs x) hm2.1, hnone]
  rw [h1, h2, List.append_nil]

end JioBlock

namespace JioBlock

theorem mem_blockOutputs_txHash (b : FeedBlock) :
    ∀ po ∈ blockOutputs b, po.1.txHash ∈ txHashes b := by
  intro po hm
  unfold blockOutputs at hm
  obtain ⟨t, ht, hm2⟩ := List.mem_flatMap.1 hm
  obtain ⟨p, -, he⟩ := List.mem_map.1 hm2
  rw [← he]
  exact List.mem_map_of_mem FeedTx.hash ht

theorem mem_blockInputRows_txHash (b : FeedBlock) :
    ∀ r ∈ blockInputRows b, r.txHash ∈ txHashes b := by
  intro r hm
  unfold blockInputRows at hm
  obtain ⟨t, ht, hm2⟩ := List.mem_flatMap.1 hm
  obtain ⟨p, -, he⟩ := List.mem_map.1 hm2
  rw [← he]
  exact List.mem_map_of_mem FeedTx.hash ht

theorem mem_newUtxoRows_txHash (b : FeedBlock) :
    ∀ kv ∈ newUtxoRows (blockOutputs b), kv.1.txHash ∈ txHashes b := by
  intro kv hm
  unfold newUtxoRows at hm
  obtain ⟨po, hpo, he⟩ := List.mem_map.1 hm
  rw [← he]
  exact mem_blockOutputs_txHash b po hpo

/-- C2: reversing a freshly applied block and re-applying it restores
the store identically — under the store invariants that make the block
genuinely fresh (hash, transaction hashes, outpoint keys and journal
entry unseen; tables keyed without duplicates; unspent rows carry no
stale spender), the reversal returns the pre-apply store (with the
mempool left as confirmed) and the re-apply lands on exactly the state
before the reversal. -/
theorem reorg_roundtrip (s s2 : Store) (b : FeedBlock)
    (hb : containsKey s.blocks b.hash = false)
    (happly : applyBlock s b = .ok s2)
    (hndU : NodupKeys s.utxos)
    (hndA : NodupKeys s.addrs)
    (hclean : ∀ kv ∈ s.utxos, kv.2.isSpent = false → kv.2.spentBy = none)
    (htx : ∀ kv ∈ s.txs, kv.1 ∉ txHashes b)
    (hinp : ∀ r ∈ s.inputs, r.txHash ∉ txHashes b)
    (hut : ∀ kv ∈ s.utxos, kv.1.txHash ∉ txHashes b)
    (hj : b.hash ∉ keysA s.journal) :
    revertBlock s2 b = { s with mempool := s2.mempool } ∧
    applyBlock (revertBlock s2 b) b = .ok s2 := by
  rcases applyBlock_ok_elim happly with ⟨hc, -⟩ | ⟨-, u1, u2, hsp, hcr, hs⟩
  · rw [hb] at hc
    cases hc
  obtain ⟨hu1, hrefs, hndsp⟩ := spendAll_ok hsp
  obtain ⟨hu2, hfresh, hndos⟩ := createAll_ok hcr
  subst hs
  subst hu1
  subst hu2
  have hrefs2 : ∀ pw ∈ blockSpends b, ∃ r,
      lookupA s.utxos pw.1 = some r ∧ r.isSpent = false ∧ r.spentBy = none := by
    intro pw hm
    obtain ⟨r, hl, hs0⟩ := hrefs pw hm
    exact ⟨r, hl, hs0, hclean (pw.1, r) (lookupA_some_mem hl) hs0⟩
  have hpart1 : revertBlock
      (appliedStore s b (markSpends s.utxos (blockSpends b) ++
        newUtxoRows (blockOutputs b))) b =
      { s with mempool := (appliedStore s b (markSpends s.utxos (blockSpends b) ++
        newUtxoRows (blockOutputs b))).mempool } := by
    unfold revertBlock appliedStore
    dsimp only
    have hf1 : removeA (s.blocks ++ [(b.hash, blockRowOf b)]) b.hash = s.blocks := by
      rw [removeA_append, removeA_eq_self (containsKey_eq_false.1 hb),
        removeA_singleton_self, List.append_nil]
    have hf2 : (upsertTxRows s.txs (newTxRows b)).filter
        (fun kv => decide (kv.1 ∉ txHashes b)) = s.txs := by
      rw [upsertTxRows_fresh s.txs (newTxRows b)
          (fun kv hm => by rw [keysA_newTxRows]; exact htx kv hm),
        List.filter_append,
        filter_all_true s.txs _ (fun kv hm => by simp [htx kv hm]),
        filter_all_false (newTxRows b) _ (fun kv hm => by
          have hk : kv.1 ∈ txHashes b := by
            rw [← keysA_newTxRows b]
            exact List.mem_map_of_mem Prod.fst hm
          simp [hk]),
        List.append_nil]
    have hf3 : (s.inputs ++ blockInputRows b).filter
        (fun r => decide (r.txHash ∉ txHashes b)) = s.inputs := by
      rw [List.filter_append,
        filter_all_true s.inputs _ (fun r hm => by simp [hinp r hm]),
        filter_all_false (blockInputRows b) _ (fun r hm => by
          simp [mem_blockInputRows_txHash b r hm]),
        List.append_nil]
    have hf4 : unmarkAll
        ((markSpends s.utxos (blockSpends b) ++
          newUtxoRows (blockOutputs b)).filter
          (fun kv => decide (kv.1.txHash ∉ txHashes b)))
        (referencedOutpoints b) = s.utxos := by
      rw [List.filter_append,
        filter_all_false (newUtxoRows (blockOutputs b)) _ (fun kv hm => by
          simp [mem_newUtxoRows_txHash b kv hm]),
        List.append_nil]
      have hfk : (markSpends s.utxos (blockSpends b)).filter
          (fun kv => decide (kv.1.txHash ∉ txHashes b)) =
          markSpends (s.utxos.filter fun kv => decide (kv.1.txHash ∉ txHashes b))
            (blockSpends b) :=
        filter_key_markSpends s.utxos (blockSpends b)
          (fun p => decide (p.txHash ∉ txHashes b))
      rw [hfk, filter_all_true s.utxos _ (fun kv hm => by simp [hut kv hm])]
      exact unmark_markSpends (blockSpends b) s.utxos hndU hndsp hrefs2
    have hf5 : restoreAddrs
        (applyDeltas s.addrs (touchedAddrs s.utxos b) (deltaFn s.utxos b))
        ((lookupA (s.journal ++
            [(b.hash, journalEntryOf s.addrs (touchedAddrs s.utxos b))])
          b.hash).getD ⟨[]⟩) = s.addrs := by
      rw [lookupA_append_right (lookupA_eq_none.2 hj), lookupA_cons, if_pos rfl]
      exact restore_applyDeltas s.addrs (touchedAddrs s.utxos b)
        (deltaFn s.utxos b) hndA
    have hf6 : removeA (s.journal ++
        [(b.hash, journalEntryOf s.addrs (touchedAddrs s.utxos b))]) b.hash =
        s.journal := by
      rw [removeA_append, removeA_eq_self hj, removeA_singleton_self,
        List.append_nil]
    rw [hf1, hf2, hf3, hf4, hf5, hf6]
  refine ⟨hpart1, ?_⟩
  rw [hpart1]
  have hb2 : containsKey
      ({ s with mempool := (appliedStore s b (markSpends s.utxos (blockSpends b) ++
        newUtxoRows (blockOutputs b))).mempool } : Store).blocks b.hash = false := hb
  have h2 := applyBlock_ok_intro hb2 hsp hcr
  rw [h2]
  unfold appliedStore
  dsimp only
  rw [removeMempool_idem]

/-- Witness for C2: reorging the child block out of the section-8
scenario and re-applying it restores the exact post-apply store. -/
theorem reorg_roundtrip_witness :
    revertBlock demoStoreB demoBlock1 =
      { demoStoreG with mempool := demoStoreB.mempool } ∧
    applyBlock (revertBlock demoStoreB demoBlock1) demoBlock1 =
      .ok demoStoreB :=
  reorg_roundtrip demoStoreG demoStoreB demoBlock1 (by decide) (by decide)
    (by decide) (by decide) (by decide) (by decide) (by decide) (by decide)
    (by decide)

end JioBlock

namespace JioBlock

/-! ### C3: address balance invariant -/

theorem recvValueOf_markRow (who : String × Nat) (r : UtxoRow) (a : String) :
    recvValueOf (markRow who r) a = recvValueOf r a := rfl

theorem spentValueOf_markRow (who : String × Nat) (r : UtxoRow) (a : String)
    (hs : r.isSpent = false) :
    spentValueOf (markRow who r) a = recvValueOf r a := by
  unfold spentValueOf recvValueOf markRow
  simp

theorem spentValueOf_unspent (r : UtxoRow) (a : String)
    (hs : r.isSpent = false) : spentValueOf r a = 0 := by
  unfold spentValueOf
  rw [if_neg]
  rintro ⟨h1, -⟩
  rw [hs] at h1
  cases h1

theorem utxoReceived_updateA_mark (a : String) (u : List (TxOutPoint × UtxoRow))
    (p : TxOutPoint) (who : String × Nat) :
    utxoReceived (updateA u p (markRow who)) a = utxoReceived u a := by
  unfold utxoReceived
  induction u with
  | nil => rfl
  | cons kv t ih =>
      rw [updateA_cons, List.map_cons, List.map_cons, List.sum_cons,
        List.sum_cons, ih]
      by_cases hk : kv.1 = p
      · rw [if_pos hk]
        rfl
      · rw [if_neg hk]

theorem utxoReceived_markSpends (a : String)
    (sp : List (TxOutPoint × (String × Nat))) :
    ∀ u, utxoReceived (markSpends u sp) a = utxoReceived u a := by
  induction sp with
  | nil => intro u; rfl
  | cons pw rest ih =>
      intro u
      rcases pw with ⟨p, who⟩
      rw [markSpends, ih, utxoReceived_updateA_mark]

theorem utxoSpent_updateA_mark (a : String) (u : List (TxOutPoint × UtxoRow))
    (p : TxOutPoint) (who : String × Nat) (r : UtxoRow)
    (hnd : NodupKeys u) (hl : lookupA u p = some r) (hs : r.isSpent = false) :
    utxoSpent (updateA u p (markRow who)) a =
      utxoSpent u a + recvValueOf r a := by
  unfold utxoSpent
  induction u with
  | nil => cases hl
  | cons kv t ih =>
      rw [NodupKeys, keysA_cons, List.nodup_cons] at hnd
      rw [lookupA_cons] at hl
      rw [updateA_cons, List.map_cons, List.map_cons, List.sum_cons, List.sum_cons]
      by_cases hk : kv.1 = p
      · rw [if_pos hk] at hl ⊢
        injection hl with hl2
        have ht : updateA t p (markRow who) = t := by
          refine updateA_congr_id _ _ _ fun kv2 hm2 he2 => ?_
          exfalso
          refine hnd.1 ?_
          rw [hk, ← he2]
          exact List.mem_map_of_mem Prod.fst hm2
        rw [ht, hl2, spentValueOf_markRow who r a hs,
          spentValueOf_unspent r a hs]
        omega
      · rw [if_neg hk] at hl ⊢
        rw [ih hnd.2 hl]
        omega

theorem utxoSpent_markSpends (a : String) :
    ∀ (sp : List (TxOutPoint × (String × Nat))) (u : List (TxOutPoint × UtxoRow)),
    NodupKeys u → (sp.map Prod.fst).Nodup →
    (∀ pw ∈ sp, ∃ r, lookupA u pw.1 = some r ∧ r.isSpent = false) →
    utxoSpent (markSpends u sp) a =
      utxoSpent u a + ((sp.map fun pw => refValue u pw.1 a)).sum := by
  intro sp
  induction sp with
  | nil =>
      intro u hnd hndsp hrefs
      rw [markSpends]
      simp
  | cons pw rest ih =>
      intro u hnd hndsp hrefs
      rcases pw with ⟨p, who⟩
      rw [List.map_cons] at hndsp
      obtain ⟨r, hl, hs⟩ := hrefs (p, who) (List.mem_cons_self _ _)
      have hnotin : p ∉ rest.map Prod.fst := (List.nodup_cons.1 hndsp).1
      have hlookup_ne : ∀ pw2 ∈ rest,
          lookupA (updateA u p (markRow who)) pw2.1 = lookupA u pw2.1 := by
        intro pw2 hm2
        have hne : p ≠ pw2.1 := fun c =>
          hnotin (c ▸ List.mem_map_of_mem Prod.fst hm2)
        exact lookupA_updateA_ne _ _ _ _ hne
      rw [markSpends, ih (updateA u p (markRow who))
        (by rw [NodupKeys, keysA_updateA]; exact hnd)
        (List.nodup_cons.1 hndsp).2
        (fun pw2 hm2 => by
          obtain ⟨r2, hl2, hs2⟩ := hrefs pw2 (List.mem_cons_of_mem _ hm2)
          exact ⟨r2, by rw [hlookup_ne pw2 hm2]; exact hl2, hs2⟩)]
      rw [utxoSpent_updateA_mark a u p who r hnd hl hs]
      have hmapeq : (rest.map fun pw2 =>
          refValue (updateA u p (markRow who)) pw2.1 a) =
          rest.map fun pw2 => refValue u pw2.1 a := by
        refine List.map_congr_left fun pw2 hm2 => ?_
        unfold refValue
        rw [hlookup_ne pw2 hm2]
      rw [hmapeq, List.map_cons, List.sum_cons]
      unfold refValue
      rw [hl]
      dsimp only
      unfold recvValueOf
      omega

theorem utxoReceived_append (u1 u2 : List (TxOutPoint × UtxoRow)) (a : String) :
    utxoReceived (u1 ++ u2) a = utxoReceived u1 a + utxoReceived u2 a := by
  unfold utxoReceived
  rw [List.map_append, List.sum_append]

theorem utxoSpent_append (u1 u2 : List (TxOutPoint × UtxoRow)) (a : String) :
    utxoSpent (u1 ++ u2) a = utxoSpent u1 a + utxoSpent u2 a := by
  unfold utxoSpent
  rw [List.map_append, List.sum_append]

theorem utxoReceived_newUtxoRows (b : FeedBlock) (a : String) :
    utxoReceived (newUtxoRows (blockOutputs b)) a = receivedTo b a := by
  unfold utxoReceived newUtxoRows receivedTo
  rw [List.map_map]
  rfl

theorem utxoSpent_newUtxoRows (os : List (TxOutPoint × FeedOutput)) (a : String) :
    utxoSpent (newUtxoRows os) a = 0 := by
  unfold utxoSpent newUtxoRows
  rw [List.map_map]
  refine List.sum_eq_zero fun x hm => ?_
  obtain ⟨po, hpo, he⟩ := List.mem_map.1 hm
  rw [← he]
  exact spentValueOf_unspent _ a rfl

theorem sentFrom_eq_spendSum (u : List (TxOutPoint × UtxoRow)) (b : FeedBlock)
    (a : String) :
    ((blockSpends b).map fun pw => refValue u pw.1 a).sum = sentFrom u b a := by
  unfold sentFrom referencedOutpoints
  rw [List.map_map]
  rfl

end JioBlock

namespace JioBlock

theorem keysA_deltas_map_part (addrs : List (String × AddressRow))
    (ks : List String) (g : String → Option AddressRow → AddressRow) :
    keysA (addrs.map fun kv =>
      if kv.1 ∈ ks then (kv.1, g kv.1 (some kv.2)) else kv) = keysA addrs := by
  induction addrs with
  | nil => rfl
  | cons kv t ih =>
      rcases kv with ⟨k, v⟩
      rw [List.map_cons, keysA_cons, keysA_cons, ih]
      by_cases hk : k ∈ ks
      · rw [if_pos hk]
      · rw [if_neg hk]

theorem lookupA_deltas_map_part (addrs : List (String × AddressRow))
    (ks : List String) (g : String → Option AddressRow → AddressRow)
    (a : String) (hmem : a ∈ keysA addrs) :
    lookupA (addrs.map fun kv =>
      if kv.1 ∈ ks then (kv.1, g kv.1 (some kv.2)) else kv) a =
      if a ∈ ks then some (g a (lookupA addrs a)) else lookupA addrs a := by
  induction addrs with
  | nil => cases hmem
  | cons kv t ih =>
      rcases kv with ⟨k, v⟩
      rw [List.map_cons]
      by_cases he : k = a
      · subst he
        by_cases hk : k ∈ ks
        · simp [lookupA_cons, hk]
        · simp [lookupA_cons, hk]
      · have htail : a ∈ keysA t := by
          rw [keysA_cons] at hmem
          rcases List.mem_cons.1 hmem with h2 | h2
          · exact absurd h2.symm he
          · exact h2
        by_cases hk : k ∈ ks
        · rw [if_pos hk]
          simp [lookupA_cons, he, ih htail]
        · rw [if_neg hk]
          simp [lookupA_cons, he, ih htail]

/-- Looking up an address after one batched delta set: touched addresses
get the delta applied to their prior row, others are unchanged. -/
theorem lookupA_applyDeltas (addrs : List (String × AddressRow))
    (ks : List String) (g : String → Option AddressRow → AddressRow)
    (a : String) :
    lookupA (applyDeltas addrs ks g) a =
      if a ∈ ks then some (g a (lookupA addrs a)) else lookupA addrs a := by
  unfold applyDeltas
  by_cases hmem : a ∈ keysA addrs
  · rcases hl : lookupA (addrs.map fun kv =>
        if kv.1 ∈ ks then (kv.1, g kv.1 (some kv.2)) else kv) a with - | v
    · rw [lookupA_eq_none, keysA_deltas_map_part] at hl
      exact absurd hmem hl
    · rw [lookupA_append_left hl, ← hl, lookupA_deltas_map_part addrs ks g a hmem]
  · rw [lookupA_append_right (by
      rw [lookupA_eq_none, keysA_deltas_map_part]
      exact hmem)]
    have hnone : lookupA addrs a = none := lookupA_eq_none.2 hmem
    by_cases hk : a ∈ ks
    · have hfk : a ∈ ks.filter fun x => !containsKey addrs x :=
        List.mem_filter.2 ⟨hk, by simp [containsKey_eq_false.2 hmem]⟩
      rw [lookupA_map_self_mem _ (fun x => g x none) hfk, if_pos hk, hnone]
    · rw [lookupA_map_self_not_mem _ (fun x => g x none)
        (fun hc => hk (List.mem_filter.1 hc).1), if_neg hk]
      exact hnone.symm

theorem receivedTo_zero (b : FeedBlock) (a : String) (h : a ∉ outAddrs b) :
    receivedTo b a = 0 := by
  unfold receivedTo
  refine List.sum_eq_zero fun x hm => ?_
  obtain ⟨po, hpo, he⟩ := List.mem_map.1 hm
  rw [← he]
  rw [if_neg]
  intro hc
  exact h (List.mem_filterMap.2 ⟨po, hpo, hc⟩)

theorem receivedCountTo_zero (b : FeedBlock) (a : String) (h : a ∉ outAddrs b) :
    receivedCountTo b a = 0 := by
  unfold receivedCountTo
  refine List.sum_eq_zero fun x hm => ?_
  obtain ⟨po, hpo, he⟩ := List.mem_map.1 hm
  rw [← he]
  rw [if_neg]
  intro hc
  exact h (List.mem_filterMap.2 ⟨po, hpo, hc⟩)

theorem sentFrom_zero (u : List (TxOutPoint × UtxoRow)) (b : FeedBlock)
    (a : String) (h : a ∉ spentAddrs u b) : sentFrom u b a = 0 := by
  unfold sentFrom
  refine List.sum_eq_zero fun x hm => ?_
  obtain ⟨p, hp, he⟩ := List.mem_map.1 hm
  rw [← he]
  unfold refValue
  rcases hl : lookupA u p with - | r
  · rfl
  · dsimp only
    rw [if_neg]
    intro hc
    refine h (List.mem_filterMap.2 ⟨p, hp, ?_⟩)
    rw [hl]
    exact hc

theorem sentCountFrom_zero (u : List (TxOutPoint × UtxoRow)) (b : FeedBlock)
    (a : String) (h : a ∉ spentAddrs u b) : sentCountFrom u b a = 0 := by
  unfold sentCountFrom
  refine List.sum_eq_zero fun x hm => ?_
  obtain ⟨p, hp, he⟩ := List.mem_map.1 hm
  rw [← he]
  unfold refCount
  rcases hl : lookupA u p with - | r
  · rfl
  · dsimp only
    rw [if_neg]
    intro hc
    refine h (List.mem_filterMap.2 ⟨p, hp, ?_⟩)
    rw [hl]
    exact hc

theorem keysA_newUtxoRows (os : List (TxOutPoint × FeedOutput)) :
    keysA (newUtxoRows os) = os.map Prod.fst := by
  unfold keysA newUtxoRows
  rw [List.map_map]
  rfl

theorem deltaFn_totalReceived (u : List (TxOutPoint × UtxoRow)) (b : FeedBlock)
    (a : String) (old : Option AddressRow) :
    (deltaFn u b a old).totalReceived =
      (old.getD zeroAddressRow).totalReceived + receivedTo b a := rfl

theorem deltaFn_totalSent (u : List (TxOutPoint × UtxoRow)) (b : FeedBlock)
    (a : String) (old : Option AddressRow) :
    (deltaFn u b a old).totalSent =
      (old.getD zeroAddressRow).totalSent + sentFrom u b a := rfl

theorem deltaFn_balance (u : List (TxOutPoint × UtxoRow)) (b : FeedBlock)
    (a : String) (old : Option AddressRow) :
    (deltaFn u b a old).balance =
      (old.getD zeroAddressRow).balance +
        (receivedTo b a : Int) - (sentFrom u b a : Int) := rfl

end JioBlock

namespace JioBlock

theorem addrRowD_def (s : Store) (a : String) :
    addrRowD s a = (lookupA s.addrs a).getD zeroAddressRow := rfl

/-- One ingest step preserves the balance cross-check invariant. -/
theorem balInv_preserved (s : Store) (b : FeedBlock) (h : BalInv s) :
    BalInv (ingest s b) := by
  unfold ingest
  rcases ha : applyBlock s b with e | s2
  · exact h
  rcases applyBlock_ok_elim ha with ⟨-, hs⟩ | ⟨-, u1, u2, hsp, hcr, hs⟩
  · rw [hs]
    exact h
  obtain ⟨hu1, hrefs, hndsp⟩ := spendAll_ok hsp
  obtain ⟨hu2, hfresh, hndos⟩ := createAll_ok hcr
  subst hs
  subst hu1
  subst hu2
  obtain ⟨hnd, hinv⟩ := h
  unfold BalInv appliedStore
  dsimp only
  constructor
  · rw [NodupKeys, keysA_append, keysA_markSpends, keysA_newUtxoRows]
    refine List.Nodup.append hnd hndos ?_
    intro k hk1 hk2
    obtain ⟨po, hpo, he⟩ := List.mem_map.1 hk2
    refine hfresh po hpo ?_
    rw [keysA_markSpends]
    exact he ▸ hk1
  · intro a
    have hrec : utxoReceived (markSpends s.utxos (blockSpends b) ++
        newUtxoRows (blockOutputs b)) a =
        utxoReceived s.utxos a + receivedTo b a := by
      rw [utxoReceived_append, utxoReceived_markSpends, utxoReceived_newUtxoRows]
    have hspe : utxoSpent (markSpends s.utxos (blockSpends b) ++
        newUtxoRows (blockOutputs b)) a =
        utxoSpent s.utxos a + sentFrom s.utxos b a := by
      rw [utxoSpent_append, utxoSpent_newUtxoRows,
        utxoSpent_markSpends a (blockSpends b) s.utxos hnd hndsp hrefs,
        sentFrom_eq_spendSum]
      omega
    obtain ⟨h1, h2, h3⟩ := hinv a
    rw [addrRowD_def]
    dsimp only
    rw [hrec, hspe]
    by_cases hk : a ∈ touchedAddrs s.utxos b
    · rw [lookupA_applyDeltas, if_pos hk, Option.getD_some]
      refine ⟨?_, ?_, ?_⟩
      · rw [deltaFn_totalReceived, ← addrRowD_def, h1]
      · rw [deltaFn_totalSent, ← addrRowD_def, h2]
      · rw [deltaFn_balance, ← addrRowD_def, h3]
        push_cast
        ring
    · rw [lookupA_applyDeltas, if_neg hk, ← addrRowD_def]
      have hnout : a ∉ outAddrs b ∧ a ∉ spentAddrs s.utxos b := by
        unfold touchedAddrs at hk
        constructor
        · intro hc
          exact hk (List.mem_dedup.2 (List.mem_append_left _ hc))
        · intro hc
          exact hk (List.mem_dedup.2 (List.mem_append_right _ hc))
      rw [receivedTo_zero b a hnout.1, sentFrom_zero s.utxos b a hnout.2]
      refine ⟨by rw [h1]; omega, by rw [h2]; omega, ?_⟩
      rw [h3]
      push_cast
      ring

/-- The invariant holds along every block trace from a store satisfying
it. -/
theorem balInv_runBlocks : ∀ (bs : List FeedBlock) (s : Store),
    BalInv s → BalInv (runBlocks s bs) := by
  intro bs
  induction bs with
  | nil => intro s h; exact h
  | cons b rest ih =>
      intro s h
      unfold runBlocks
      rw [List.foldl_cons]
      exact ih (ingest s b) (balInv_preserved s b h)

theorem balInv_empty : BalInv emptyStore := by
  refine ⟨List.nodup_nil, fun a => ⟨rfl, rfl, ?_⟩⟩
  simp [addrRowD_def, emptyStore, zeroAddressRow, utxoReceived, utxoSpent,
    lookupA_nil]

/-- C3: after any sequence of applied blocks starting from the empty
store, every stored address aggregate satisfies
`balance = total_received − total_sent`, and the stored totals (and
hence the balance) coincide with the received and sent sums recomputed
independently from the UTXO table. -/
theorem address_balance_invariant (bs : List FeedBlock) (a : String) :
    (addrRowD (runBlocks emptyStore bs) a).balance =
      ((addrRowD (runBlocks emptyStore bs) a).totalReceived : Int) -
        ((addrRowD (runBlocks emptyStore bs) a).totalSent : Int) ∧
    (addrRowD (runBlocks emptyStore bs) a).totalReceived =
      utxoReceived (runBlocks emptyStore bs).utxos a ∧
    (addrRowD (runBlocks emptyStore bs) a).totalSent =
      utxoSpent (runBlocks emptyStore bs).utxos a ∧
    (addrRowD (runBlocks emptyStore bs) a).balance =
      (utxoReceived (runBlocks emptyStore bs).utxos a : Int) -
        (utxoSpent (runBlocks emptyStore bs).utxos a : Int) := by
  obtain ⟨-, hinv⟩ := balInv_runBlocks bs emptyStore balInv_empty
  obtain ⟨h1, h2, h3⟩ := hinv a
  exact ⟨by rw [h3, h1, h2], h1, h2, h3⟩

end JioBlock

namespace JioBlock

/-! ### C4: spent flag vs confirmed spending inputs -/

theorem countRefs_append (l1 l2 : List TxInputRow) (p : TxOutPoint) :
    countRefs (l1 ++ l2) p = countRefs l1 p + countRefs l2 p := by
  unfold countRefs
  rw [List.filter_append, List.length_append]

/-- Per-transaction bijection between stored input rows referencing `p`
and block spends keyed `p`. -/
theorem countRefs_tx_aux (p : TxOutPoint) (h : String) :
    ∀ l : List (Nat × FeedInput),
    ((l.map fun pr => (⟨h, pr.1, pr.2.prevOut⟩ : TxInputRow)).filter
      fun r => decide (r.prevOut = some p)).length =
    ((l.filterMap fun pr => pr.2.prevOut.map fun q => (q, (h, pr.1))).filter
      fun pw => decide (pw.1 = p)).length := by
  intro l
  induction l with
  | nil => rfl
  | cons pr t ih =>
      rcases hq : pr.2.prevOut with - | q
      · simp [List.filter_cons, List.filterMap_cons, hq, ih]
      · by_cases hqp : q = p
        · simp [List.filter_cons, List.filterMap_cons, hq, hqp, ih]
        · simp [List.filter_cons, List.filterMap_cons, hq, hqp, ih]

/-- The inputs a block inserts reference exactly the outpoints its
spends record. -/
theorem countRefs_blockInputRows (b : FeedBlock) (p : TxOutPoint) :
    countRefs (blockInputRows b) p =
      ((blockSpends b).filter fun pw => decide (pw.1 = p)).length := by
  unfold countRefs blockInputRows blockSpends
  suffices h : ∀ ts : List FeedTx,
      ((ts.flatMap fun t => t.inputs.enum.map fun pr =>
        (⟨t.hash, pr.1, pr.2.prevOut⟩ : TxInputRow)).filter
        fun r => decide (r.prevOut = some p)).length =
      ((ts.flatMap fun t => t.inputs.enum.filterMap fun pr =>
        pr.2.prevOut.map fun q => (q, (t.hash, pr.1))).filter
        fun pw => decide (pw.1 = p)).length from h b.txs
  intro ts
  induction ts with
  | nil => rfl
  | cons t rest ih =>
      rw [List.flatMap_cons, List.flatMap_cons, List.filter_append,
        List.filter_append, List.length_append, List.length_append, ih,
        countRefs_tx_aux p t.hash t.inputs.enum]

theorem filter_fst_length_of_mem (sp : List (TxOutPoint × (String × Nat)))
    (p : TxOutPoint) (hnd : (sp.map Prod.fst).Nodup)
    (hp : p ∈ sp.map Prod.fst) :
    (sp.filter fun pw => decide (pw.1 = p)).length = 1 := by
  induction sp with
  | nil => cases hp
  | cons pw rest ih =>
      rw [List.map_cons] at hnd hp
      rw [List.filter_cons]
      by_cases he : pw.1 = p
      · rw [if_pos (by simp [he])]
        have hnotin : p ∉ rest.map Prod.fst := he ▸ (List.nodup_cons.1 hnd).1
        rw [filter_all_false rest _ fun pw2 hm2 => by
          simp only [decide_eq_false_iff_not]
          intro hc
          exact hnotin (hc ▸ List.mem_map_of_mem Prod.fst hm2)]
        rfl
      · rw [if_neg (by simp [he])]
        rcases List.mem_cons.1 hp with h2 | h2
        · exact absurd h2.symm he
        · exact ih (List.nodup_cons.1 hnd).2 h2

theorem filter_fst_length_of_not_mem (sp : List (TxOutPoint × (String × Nat)))
    (p : TxOutPoint) (hp : p ∉ sp.map Prod.fst) :
    (sp.filter fun pw => decide (pw.1 = p)).length = 0 := by
  rw [filter_all_false sp _ fun pw2 hm2 => by
    simp only [decide_eq_false_iff_not]
    intro hc
    exact hp (hc ▸ List.mem_map_of_mem Prod.fst hm2)]
  rfl

theorem sp_keys_mem_u (u : List (TxOutPoint × UtxoRow))
    (sp : List (TxOutPoint × (String × Nat)))
    (hrefs : ∀ pw ∈ sp, ∃ r, lookupA u pw.1 = some r ∧ r.isSpent = false)
    (p : TxOutPoint) (hp : p ∈ sp.map Prod.fst) : p ∈ keysA u := by
  obtain ⟨pw, hm, he⟩ := List.mem_map.1 hp
  obtain ⟨r, hl, -⟩ := hrefs pw hm
  rw [← he]
  rw [← lookupA_isSome_iff, hl]
  rfl

theorem lookupA_markSpends_of_mem :
    ∀ (sp : List (TxOutPoint × (String × Nat))) (u : List (TxOutPoint × UtxoRow)),
    (sp.map Prod.fst).Nodup →
    (∀ pw ∈ sp, ∃ r, lookupA u pw.1 = some r ∧ r.isSpent = false) →
    ∀ p ∈ sp.map Prod.fst,
    ∃ who r0, lookupA u p = some r0 ∧ r0.isSpent = false ∧
      lookupA (markSpends u sp) p = some (markRow who r0) := by
  intro sp
  induction sp with
  | nil =>
      intro u hnd hrefs p hp
      cases hp
  | cons pw rest ih =>
      rcases pw with ⟨q, w⟩
      intro u hnd hrefs p hp
      rw [List.map_cons] at hnd hp
      have hqnotin : q ∉ rest.map Prod.fst := (List.nodup_cons.1 hnd).1
      obtain ⟨r0, hl0, hs0⟩ := hrefs (q, w) (List.mem_cons_self _ _)
      by_cases hpq : p = q
      · subst hpq
        refine ⟨w, r0, hl0, hs0, ?_⟩
        rw [markSpends, lookupA_markSpends_ne _ _ _ hqnotin,
          lookupA_updateA_self, hl0]
        rfl
      · rcases List.mem_cons.1 hp with h2 | h2
        · exact absurd h2 hpq
        · have hrefs1 : ∀ pw2 ∈ rest, ∃ r, lookupA (updateA u q (markRow w)) pw2.1 =
              some r ∧ r.isSpent = false := by
            intro pw2 hm2
            obtain ⟨r2, hl2, hs2⟩ := hrefs pw2 (List.mem_cons_of_mem _ hm2)
            have hne : q ≠ pw2.1 := fun c =>
              hqnotin (c ▸ List.mem_map_of_mem Prod.fst hm2)
            exact ⟨r2, by rw [lookupA_updateA_ne _ _ _ _ hne]; exact hl2, hs2⟩
          obtain ⟨who, r0b, hl0b, hs0b, hmark⟩ :=
            ih (updateA u q (markRow w)) (List.nodup_cons.1 hnd).2 hrefs1 p h2
          have hne : q ≠ p := fun c => hpq c.symm
          refine ⟨who, r0b, ?_, hs0b, ?_⟩
          · rw [← lookupA_updateA_ne u q p (markRow w) hne]
            exact hl0b
          · rw [markSpends]
            exact hmark
      
theorem lookupA_newUtxoRows_unspent (os : List (TxOutPoint × FeedOutput))
    (p : TxOutPoint) (r : UtxoRow)
    (h : lookupA (newUtxoRows os) p = some r) : r.isSpent = false := by
  have hm := lookupA_some_mem h
  unfold newUtxoRows at hm
  obtain ⟨po, hpo, he⟩ := List.mem_map.1 hm
  have h2 := congrArg Prod.snd he
  dsimp only at h2
  rw [← h2]

end JioBlock

namespace JioBlock

theorem newTxRows_confirmed (b : FeedBlock) :
    ∀ kv ∈ newTxRows b, kv.2.isConfirmed = true := by
  intro kv hm
  unfold newTxRows at hm
  obtain ⟨pr, hpr, he⟩ := List.mem_map.1 hm
  have h2 := congrArg Prod.snd he
  dsimp only at h2
  rw [← h2]

theorem upsertTxRows_confirmed (txs rows : List (String × TxRow))
    (h1 : ∀ kv ∈ txs, kv.2.isConfirmed = true)
    (h2 : ∀ kv ∈ rows, kv.2.isConfirmed = true) :
    ∀ kv ∈ upsertTxRows txs rows, kv.2.isConfirmed = true := by
  intro kv hm
  unfold upsertTxRows at hm
  rcases List.mem_append.1 hm with hmm | hmm
  · obtain ⟨kv0, hkv0, he⟩ := List.mem_map.1 hmm
    rcases hl : lookupA rows kv0.1 with - | r
    · rw [hl] at he
      dsimp only at he
      rw [← he]
      exact h1 kv0 hkv0
    · rw [hl] at he
      dsimp only at he
      have h3 := congrArg Prod.snd he
      dsimp only at h3
      rw [← h3]
      exact h2 (kv0.1, r) (lookupA_some_mem hl)
  · exact h2 kv (List.mem_filter.1 hmm).1

theorem keysA_upsertTxRows (txs rows : List (String × TxRow)) :
    keysA (upsertTxRows txs rows) =
      keysA txs ++ keysA (rows.filter fun kv => !containsKey txs kv.1) := by
  unfold upsertTxRows
  rw [keysA_append, keysA_upsert_map_part]

theorem mem_keysA_upsertTxRows (txs rows : List (String × TxRow)) (h : String)
    (hh : h ∈ keysA txs ∨ h ∈ keysA rows) :
    h ∈ keysA (upsertTxRows txs rows) := by
  rw [keysA_upsertTxRows, List.mem_append]
  rcases hh with hh | hh
  · exact Or.inl hh
  · by_cases hin : h ∈ keysA txs
    · exact Or.inl hin
    · refine Or.inr ?_
      exact (mem_keysA_filter_key rows (fun a => !containsKey txs a) h).2
        ⟨hh, by simp [containsKey_eq_false.2 hin]⟩

/-- One ingest step preserves the spent-flag invariant. -/
theorem spentInv_preserved (s : Store) (b : FeedBlock) (h : SpentInv s) :
    SpentInv (ingest s b) := by
  unfold ingest
  rcases ha : applyBlock s b with e | s2
  · exact h
  rcases applyBlock_ok_elim ha with ⟨-, hs⟩ | ⟨-, u1, u2, hsp, hcr, hs⟩
  · rw [hs]
    exact h
  obtain ⟨hu1, hrefs, hndsp⟩ := spendAll_ok hsp
  obtain ⟨hu2, hfresh, hndos⟩ := createAll_ok hcr
  subst hs
  subst hu1
  subst hu2
  obtain ⟨hnd, hiff, hzero, hconf, hown⟩ := h
  unfold SpentInv appliedStore
  dsimp only
  have hcount : ∀ p, countRefs (s.inputs ++ blockInputRows b) p =
      countRefs s.inputs p +
        ((blockSpends b).filter fun pw => decide (pw.1 = p)).length := by
    intro p
    rw [countRefs_append, countRefs_blockInputRows]
  refine ⟨?_, ?_, ?_, ?_, ?_⟩
  · rw [NodupKeys, keysA_append, keysA_markSpends, keysA_newUtxoRows]
    refine List.Nodup.append hnd hndos ?_
    intro k hk1 hk2
    obtain ⟨po, hpo, he⟩ := List.mem_map.1 hk2
    refine hfresh po hpo ?_
    rw [keysA_markSpends]
    exact he ▸ hk1
  · intro p r hlook
    rw [hcount p]
    by_cases hpu : p ∈ keysA s.utxos
    · rcases hml : lookupA (markSpends s.utxos (blockSpends b)) p with - | r2
      · rw [lookupA_eq_none, keysA_markSpends] at hml
        exact absurd hpu hml
      · rw [lookupA_append_left hml] at hlook
        injection hlook with hlook2
        subst hlook2
        by_cases hpsp : p ∈ (blockSpends b).map Prod.fst
        · obtain ⟨who, r0, hl0, hs0, hmark⟩ :=
            lookupA_markSpends_of_mem (blockSpends b) s.utxos hndsp hrefs p hpsp
          rw [hml] at hmark
          injection hmark with hmark2
          have hold : countRefs s.inputs p = 0 := by
            obtain ⟨hif, hle⟩ := hiff p r0 hl0
            have hne1 : countRefs s.inputs p ≠ 1 := by
              intro hc
              have h4 := hif.2 hc
              rw [h4] at hs0
              cases hs0
            omega
          have hnew : ((blockSpends b).filter fun pw => decide (pw.1 = p)).length = 1 :=
            filter_fst_length_of_mem _ _ hndsp hpsp
          rw [hold, hnew, hmark2]
          refine ⟨?_, by omega⟩
          simp [markRow]
        · have hunch : lookupA (markSpends s.utxos (blockSpends b)) p =
              lookupA s.utxos p := lookupA_markSpends_ne _ _ _ hpsp
          rw [hml] at hunch
          obtain ⟨hif, hle⟩ := hiff p r2 hunch.symm
          rw [filter_fst_length_of_not_mem _ _ hpsp, Nat.add_zero]
          exact ⟨hif, hle⟩
    · have hmlnone : lookupA (markSpends s.utxos (blockSpends b)) p = none := by
        rw [lookupA_eq_none, keysA_markSpends]
        exact hpu
      rw [lookupA_append_right hmlnone] at hlook
      have hrs : r.isSpent = false := lookupA_newUtxoRows_unspent _ _ _ hlook
      have hold : countRefs s.inputs p = 0 := hzero p (lookupA_eq_none.2 hpu)
      have hpsp : p ∉ (blockSpends b).map Prod.fst := fun hc =>
        hpu (sp_keys_mem_u s.utxos (blockSpends b) hrefs p hc)
      rw [hold, filter_fst_length_of_not_mem _ _ hpsp, hrs]
      refine ⟨by simp, by omega⟩
  · intro p hlook
    rcases hml : lookupA (markSpends s.utxos (blockSpends b)) p with - | r2
    · have hpu : p ∉ keysA s.utxos := by
        rw [← keysA_markSpends s.utxos (blockSpends b)]
        exact lookupA_eq_none.1 hml
      have hold : countRefs s.inputs p = 0 := hzero p (lookupA_eq_none.2 hpu)
      have hpsp : p ∉ (blockSpends b).map Prod.fst := fun hc =>
        hpu (sp_keys_mem_u s.utxos (blockSpends b) hrefs p hc)
      rw [hcount p, hold, filter_fst_length_of_not_mem _ _ hpsp]
    · rw [lookupA_append_left hml] at hlook
      cases hlook
  · exact upsertTxRows_confirmed s.txs (newTxRows b) hconf (newTxRows_confirmed b)
  · intro r hm
    rcases List.mem_append.1 hm with hmm | hmm
    · exact mem_keysA_upsertTxRows _ _ _ (Or.inl (hown r hmm))
    · refine mem_keysA_upsertTxRows _ _ _ (Or.inr ?_)
      rw [keysA_newTxRows]
      exact mem_blockInputRows_txHash b r hmm

theorem spentInv_empty : SpentInv emptyStore := by
  refine ⟨List.nodup_nil, ?_, ?_, ?_, ?_⟩
  · intro p r hl
    cases hl
  · intro p hl
    rfl
  · rintro kv ⟨⟩
  · rintro r ⟨⟩

/-- The spent-flag invariant holds along every block trace. -/
theorem spentInv_runBlocks : ∀ (bs : List FeedBlock) (s : Store),
    SpentInv s → SpentInv (runBlocks s bs) := by
  intro bs
  induction bs with
  | nil => intro s h; exact h
  | cons b rest ih =>
      intro s h
      unfold runBlocks
      rw [List.foldl_cons]
      exact ih (ingest s b) (spentInv_preserved s b h)

/-- C4: after any sequence of applied blocks, a stored output is marked
spent exactly when exactly one stored input references its
`(tx_hash, index)`; no output ever has more than one referencing input;
and every stored input belongs to a stored, confirmed transaction (so
the referencing inputs are confirmed inputs). -/
theorem utxo_spent_iff (bs : List FeedBlock) (p : TxOutPoint) (r : UtxoRow)
    (h : lookupA (runBlocks emptyStore bs).utxos p = some r) :
    (r.isSpent = true ↔ countRefs (runBlocks emptyStore bs).inputs p = 1) ∧
    countRefs (runBlocks emptyStore bs).inputs p ≤ 1 ∧
    (∀ rin ∈ (runBlocks emptyStore bs).inputs, ∃ t,
      lookupA (runBlocks emptyStore bs).txs rin.txHash = some t ∧
      t.isConfirmed = true) := by
  obtain ⟨-, hiff, -, hconf, hown⟩ := spentInv_runBlocks bs emptyStore spentInv_empty
  refine ⟨(hiff p r h).1, (hiff p r h).2, ?_⟩
  intro rin hm
  have hk := hown rin hm
  rcases hl : lookupA (runBlocks emptyStore bs).txs rin.txHash with - | t
  · rw [lookupA_eq_none] at hl
    exact absurd hk hl
  · exact ⟨t, rfl, hconf (rin.txHash, t) (lookupA_some_mem hl)⟩

/-- Witness for C4 on the section-8 trace at the genesis coinbase
outpoint. -/
theorem utxo_spent_iff_witness :
    (demoSpentRow.isSpent = true ↔
      countRefs (runBlocks emptyStore [demoGenesis, demoBlock1]).inputs
        ⟨"cbG", 0⟩ = 1) ∧
    countRefs (runBlocks emptyStore [demoGenesis, demoBlock1]).inputs
      ⟨"cbG", 0⟩ ≤ 1 ∧
    (∀ rin ∈ (runBlocks emptyStore [demoGenesis, demoBlock1]).inputs, ∃ t,
      lookupA (runBlocks emptyStore [demoGenesis, demoBlock1]).txs rin.txHash =
        some t ∧ t.isConfirmed = true) :=
  utxo_spent_iff [demoGenesis, demoBlock1] ⟨"cbG", 0⟩ demoSpentRow (by decide)

end JioBlock

